import Mathlib

/-!
# dbfreader: a shallow embedding of the DBF decoder and the CSV emitter

The Go sources embedded here are `internal/bytes/input.go`, `types/primitive.go`,
`types/types.go`, `utils/utils.go` and `csv/output.go`.

Modelling conventions

* A Go `byte` is a `Fin 256`; a Go `string` and a `[]byte` are lists of bytes.
* Signed machine integers are `Int`s, wrapped explicitly with `wrapInt w`.
* An `*os.File` is the pair of the file content and the cursor offset; every
  function that reads from the file returns the new file state with its value.
* A Go `(value, error)` result is a `Result`: `ok`, `error` or a run-time `panic`.
* Code outside the repository sources (the Iran System transcoder, the decimal
  library, `fmt.Sscanf`, `strconv.FormatFloat`, the Unicode fall-back of
  `strings.TrimSpace`) is a field of `Extern`, and every definition and theorem
  is parametric in it.
-/

namespace DBF

/-! ## Bytes, strings and machine integers -/

abbrev Byte := Fin 256

abbrev GoString := List Byte

/-- The bytes of an ASCII string literal. -/
def ascii (s : String) : GoString :=
  s.toList.map (fun c => (Fin.ofNat c.toNat : Fin 256))

/-- Conversion of an integer to the signed `w`-bit type (two's complement wrap-around). -/
def wrapInt (w : Nat) (x : Int) : Int :=
  (x + 2 ^ (w - 1)) % 2 ^ w - 2 ^ (w - 1)

/-- Value of a byte as a Go integer. -/
def byteVal (b : Byte) : Int := (b.val : Int)

/-! ## Errors and results -/

/-- The context added by each `fmt.Errorf("...: %w", ...)` of the sources. -/
inductive Ctx
  | readingHeader
  | readingHeaderBytes
  | readingArrayDescriptors
  | readingRecords
  | peekingNextByte
  | gettingCurrentOffset
  | readingNextByte (offset : Nat)
  | seekingFile (offset : Nat)
  | readingArrayDescriptor (offset : Nat)
  | readingDeletionFlag (i : Nat)
  | readingRecordField (i : Nat) (name : GoString)
  | parsingRecordField (i : Nat) (name : GoString)
  | parsingDecimal (s : GoString)
  | parsingFloat (s : GoString)
  | parsingNumeric (s : GoString)
deriving DecidableEq, Repr

/-- Go `error` values that the decoder can return. `fuelExhausted` is not a Go
error: it marks the exhaustion of the fuel of `ReadArrayDescriptorsLoop`, and
`ReadArrayDescriptorsBytes_fuel` shows that it is never returned. -/
inductive Err
  | EOF
  | ErrUnexpectedEOF
  | seekInvalid
  | transcode
  | decimalSyntax
  | scan
  | memoUnsupported
  | unrecognizedType (tag : Int)
  | countMismatch (got : Int) (expected : Int)
  | fuelExhausted
  | wrap (ctx : Ctx) (e : Err)
deriving DecidableEq, Repr

/-- Outcome of a Go call returning `(value, error)`. -/
inductive Result (α : Type)
  | ok (v : α)
  | error (e : Err)
  | panic
deriving DecidableEq, Repr

/-! ## External collaborators -/

/-- A `decimal.Decimal` of shopspring/decimal: `value * 10 ^ exp`. -/
structure DecimalValue where
  value : Int
  exp : Int
deriving DecidableEq, Repr

/-- A `float64`, carried as its bit pattern. -/
structure Float64 where
  bits : Nat
deriving DecidableEq, Repr

/-- Functions called by the sources whose code is not part of them. -/
structure Extern where
  /-- Go `iransystem.DecodeBytes`; `none` is a returned error. -/
  DecodeBytes : List Byte → Option GoString
  /-- Go `decimal.NewFromString`; `none` is a returned error. -/
  NewFromString : GoString → Option DecimalValue
  /-- Go `decimal.Decimal.String`. -/
  DecimalString : DecimalValue → GoString
  /-- Go `fmt.Sscanf(s, "%f", &value)`; `none` is a returned error. -/
  SscanfFloat : GoString → Option Float64
  /-- Go `strconv.FormatFloat(x, 'f', -1, 64)`. -/
  FormatFloat : Float64 → GoString
  /-- Go `strings.TrimFunc(s, unicode.IsSpace)`. -/
  TrimFuncIsSpace : GoString → GoString
  /-- Go `strings.TrimRightFunc(s, unicode.IsSpace)`. -/
  TrimRightFuncIsSpace : GoString → GoString

/-! ## `strings.Trim` and `strings.TrimSpace` -/

/-- Membership in the cutset `"\u0000 "`. -/
def inCutset (c : Byte) : Bool := c == 0 || c == 32

/-- Go `trimRightASCII` of package `strings` for the cutset `"\u0000 "`. -/
def trimRightASCII (s : GoString) : GoString :=
  (s.reverse.dropWhile inCutset).reverse

/-- Go `trimLeftASCII` of package `strings` for the cutset `"\u0000 "`. -/
def trimLeftASCII (s : GoString) : GoString :=
  s.dropWhile inCutset

/-- Go `strings.Trim(s, "\u0000 ")`. -/
def Trim (s : GoString) : GoString :=
  trimLeftASCII (trimRightASCII s)

/-- The table `asciiSpace` of package `strings`: tab, LF, VT, FF, CR and space. -/
def asciiSpace (c : Byte) : Bool :=
  c == 9 || c == 10 || c == 11 || c == 12 || c == 13 || c == 32

/-- Second loop of `strings.TrimSpace`, on the reversed string `s[start:]`. -/
def trimSpaceStop (E : Extern) : GoString → GoString
  | [] => []
  | c :: rest =>
    if 128 ≤ c.val then E.TrimRightFuncIsSpace (c :: rest).reverse
    else if asciiSpace c then trimSpaceStop E rest
    else (c :: rest).reverse

/-- Go `strings.TrimSpace`. -/
def TrimSpace (E : Extern) : GoString → GoString
  | [] => []
  | c :: rest =>
    if 128 ≤ c.val then E.TrimFuncIsSpace (c :: rest)
    else if asciiSpace c then TrimSpace E rest
    else trimSpaceStop E (c :: rest).reverse

/-! ## `types/primitive.go` -/

/-- The loop of `readString`: the index of the first zero byte, `n` when there is none. -/
def readStringLoop (n : Nat) : Nat → List Byte → Nat
  | _, [] => n
  | i, v :: rest => if v = 0 then i else readStringLoop n (i + 1) rest

def readString (b : List Byte) : GoString :=
  b.take (readStringLoop b.length 0 b)

def CharacterType : Int := 67
def DecimalType : Int := 68
def FloatType : Int := 70
def LogicalType : Int := 76
def MemoType : Int := 77
def NumericType : Int := 78

inductive Primitive
  | Character (s : GoString)
  | Decimal (d : DecimalValue)
  | Float (x : Float64)
  | Logical (b : Bool)
  | Memo (s : GoString)
  | Numeric (d : DecimalValue)
deriving DecidableEq, Repr

def Character.ReadFromDBF (E : Extern) (b : List Byte) : Result Primitive :=
  match E.DecodeBytes b with
  | none => .error .transcode
  | some decodedString => .ok (.Character (Trim decodedString))

def Decimal.ReadFromDBF (E : Extern) (b : List Byte) : Result Primitive :=
  match E.NewFromString (readString b) with
  | none => .error (.wrap (.parsingDecimal (readString b)) .decimalSyntax)
  | some dec => .ok (.Decimal dec)

def Float.ReadFromDBF (E : Extern) (b : List Byte) : Result Primitive :=
  match E.SscanfFloat (readString b) with
  | none => .error (.wrap (.parsingFloat (readString b)) .scan)
  | some value => .ok (.Float value)

def Logical.ReadFromDBF (b : List Byte) : Result Primitive :=
  let s := readString b
  if s = ascii "T" ∨ s = ascii "t" ∨ s = ascii "Y" ∨ s = ascii "y" then
    .ok (.Logical true)
  else
    .ok (.Logical false)

def Memo.ReadFromDBF (_ : List Byte) : Result Primitive :=
  .error .memoUnsupported

def Numeric.ReadFromDBF (E : Extern) (b : List Byte) : Result Primitive :=
  match E.NewFromString (TrimSpace E (readString b)) with
  | none => .error (.wrap (.parsingNumeric (readString b)) .decimalSyntax)
  | some dec => .ok (.Numeric dec)

/-- Go `strconv.FormatBool`. -/
def FormatBool (b : Bool) : GoString :=
  if b then ascii "true" else ascii "false"

def Primitive.ToString (E : Extern) : Primitive → GoString
  | .Character s => s
  | .Decimal d => E.DecimalString d
  | .Float x => E.FormatFloat x
  | .Logical b => FormatBool b
  | .Memo _ => ascii "MEMO FIELD (NOT SUPPORTED)"
  | .Numeric d => E.DecimalString d

/-! ## `types/types.go` -/

def ArrayDescriptorsTerminator : Byte := 0x0D

structure ArrayDescriptor where
  FieldName : GoString
  FieldType : Byte
  FieldLength : Byte
  FieldDecimalCount : Byte
  WorkAreaID : Nat
  Example : Byte
  ProductionMDXFieldFlag : Bool
deriving DecidableEq, Repr

structure Header where
  DBase : Int
  LastUpdateDate : Int
  NumberOfRecords : Int
  NumberOfBytesOfHeader : Int
  NumberOfBytesOfRecord : Int
  IncompleteTransaction : Bool
  EncryptionFlag : Bool
  ProductionMDXFileFlag : Bool
  LanguageDriverID : Int
deriving DecidableEq, Repr

/-- A Go `map[string]Primitive`: an association list without repeated keys. -/
abbrev GoMap := List (GoString × Primitive)

/-- The map index expression `m[k]`; `none` is the nil interface of a missing key. -/
def GoMap.get : GoMap → GoString → Option Primitive
  | [], _ => none
  | (k', v) :: rest, k => if k' = k then some v else GoMap.get rest k

/-- The map assignment `m[k] = v`. -/
def GoMap.set : GoMap → GoString → Primitive → GoMap
  | [], k, v => [(k, v)]
  | (k', v') :: rest, k, v =>
    if k' = k then (k, v) :: rest else (k', v') :: GoMap.set rest k v

/-- The keys of a map. -/
def GoMap.keys (m : GoMap) : List GoString := m.map Prod.fst

structure DBFFile where
  Header : Header
  ArrayDescriptors : List ArrayDescriptor
  Records : List GoMap
deriving DecidableEq, Repr

def DBFFile.recordBytesCount (d : DBFFile) : Int :=
  d.ArrayDescriptors.foldl (fun sum ad => wrapInt 64 (sum + byteVal ad.FieldLength)) 0

/-! ## The file handle -/

/-- An `*os.File` opened on a regular file: its content and the cursor offset. -/
structure File where
  data : List Byte
  pos : Nat
deriving DecidableEq, Repr

/-- Go `binary.Read(f, binary.LittleEndian, &x)` for a value `x` of encoded size `n`:
`io.ReadFull` of `n` bytes. Nothing is read for `n = 0`; at the end of the file
the error is `io.EOF`; with fewer than `n` bytes left it is `io.ErrUnexpectedEOF`. -/
def binaryRead (n : Nat) (f : File) : Result (List Byte × File) :=
  if n = 0 then .ok ([], f)
  else if f.data.length ≤ f.pos then .error .EOF
  else if f.data.length < f.pos + n then .error .ErrUnexpectedEOF
  else .ok ((f.data.drop f.pos).take n, { f with pos := f.pos + n })

/-- Go `f.Seek(delta, io.SeekCurrent)`. -/
def Seek (delta : Int) (f : File) : Result (Nat × File) :=
  if (f.pos : Int) + delta < 0 then .error .seekInvalid
  else .ok (((f.pos : Int) + delta).toNat, { f with pos := ((f.pos : Int) + delta).toNat })

/-! ## `utils/utils.go` -/

def PeakNextByte (f : File) : Result ((Nat × Byte) × File) :=
  match Seek 0 f with
  | .error e => .error (.wrap .gettingCurrentOffset e)
  | .panic => .panic
  | .ok (currentOffset, f1) =>
    match binaryRead 1 f1 with
    | .error e => .error (.wrap (.readingNextByte currentOffset) e)
    | .panic => .panic
    | .ok (bs, f2) => .ok ((currentOffset, bs.getD 0 0), f2)

/-! ## `internal/bytes/input.go` -/

/-- Little-endian decoding of the 32 bytes of `HeaderBytes` and the conversion
to `types.Header`. -/
def decodeHeader (bs : List Byte) : Header :=
  { DBase := wrapInt 8 (byteVal (bs.getD 0 0))
    LastUpdateDate :=
      wrapInt 32 (wrapInt 32 (wrapInt 32 (10000 * byteVal (bs.getD 1 0))
        + wrapInt 32 (100 * byteVal (bs.getD 2 0))) + byteVal (bs.getD 3 0))
    NumberOfRecords :=
      wrapInt 32 (byteVal (bs.getD 4 0) + 256 * byteVal (bs.getD 5 0)
        + 65536 * byteVal (bs.getD 6 0) + 16777216 * byteVal (bs.getD 7 0))
    NumberOfBytesOfHeader := wrapInt 16 (byteVal (bs.getD 8 0) + 256 * byteVal (bs.getD 9 0))
    NumberOfBytesOfRecord := wrapInt 16 (byteVal (bs.getD 10 0) + 256 * byteVal (bs.getD 11 0))
    IncompleteTransaction := bs.getD 14 0 != 0
    EncryptionFlag := bs.getD 15 0 != 0
    ProductionMDXFileFlag := bs.getD 28 0 != 0
    LanguageDriverID := wrapInt 8 (byteVal (bs.getD 29 0)) }

def ReadHeaderBytes (f : File) : Result (Header × File) :=
  match binaryRead 32 f with
  | .error e => .error (.wrap .readingHeaderBytes e)
  | .panic => .panic
  | .ok (bs, f1) => .ok (decodeHeader bs, f1)

/-- Little-endian decoding of the 32 bytes of `ArrayDescriptorBytes` and the
conversion to `types.ArrayDescriptor`. -/
def decodeArrayDescriptor (bs : List Byte) : ArrayDescriptor :=
  { FieldName := Trim (bs.take 11)
    FieldType := bs.getD 11 0
    FieldLength := bs.getD 16 0
    FieldDecimalCount := bs.getD 17 0
    WorkAreaID := (bs.getD 18 0).val + 256 * (bs.getD 19 0).val
    Example := bs.getD 20 0
    ProductionMDXFieldFlag := bs.getD 31 0 != 0 }

/-- The `for` loop of `ReadArrayDescriptorsBytes`, one iteration per unit of fuel. -/
def ReadArrayDescriptorsLoop :
    Nat → File → List ArrayDescriptor → Result (List ArrayDescriptor × File)
  | 0, _, _ => .error .fuelExhausted
  | fuel + 1, f, arrayDescriptors =>
    match PeakNextByte f with
    | .error e => .error (.wrap .peekingNextByte e)
    | .panic => .panic
    | .ok ((currentOffset, nextChar), f1) =>
      if nextChar = ArrayDescriptorsTerminator then .ok (arrayDescriptors, f1)
      else
        match Seek (-1) f1 with
        | .error e => .error (.wrap (.seekingFile currentOffset) e)
        | .panic => .panic
        | .ok (_, f2) =>
          match binaryRead 32 f2 with
          | .error e =>
            if e = .EOF then .ok (arrayDescriptors, f2)
            else .error (.wrap (.readingArrayDescriptor currentOffset) e)
          | .panic => .panic
          | .ok (bs, f3) =>
            ReadArrayDescriptorsLoop fuel f3 (arrayDescriptors ++ [decodeArrayDescriptor bs])

/-- The fuel is one more than the number of bytes of the file, and every
iteration that continues consumes 32 of them. -/
def ReadArrayDescriptorsBytes (f : File) : Result (List ArrayDescriptor × File) :=
  ReadArrayDescriptorsLoop (f.data.length + 1) f []

def ReadField (E : Extern) (fieldType : Int) (b : List Byte) : Result Primitive :=
  if fieldType = CharacterType then Character.ReadFromDBF E b
  else if fieldType = DecimalType then Decimal.ReadFromDBF E b
  else if fieldType = FloatType then Float.ReadFromDBF E b
  else if fieldType = LogicalType then Logical.ReadFromDBF b
  else if fieldType = MemoType then Memo.ReadFromDBF b
  else if fieldType = NumericType then Numeric.ReadFromDBF E b
  else .error (.unrecognizedType fieldType)

/-- The inner loop of `ReadRecordsBytes` over the descriptors, for record `i`. -/
def readRecordFields (E : Extern) (i : Nat) :
    List ArrayDescriptor → File → GoMap → Result (GoMap × File)
  | [], f, record => .ok (record, f)
  | ad :: rest, f, record =>
    match binaryRead ad.FieldLength.val f with
    | .error e => .error (.wrap (.readingRecordField i ad.FieldName) e)
    | .panic => .panic
    | .ok (b, f1) =>
      match ReadField E (byteVal ad.FieldType) b with
      | .error e => .error (.wrap (.parsingRecordField i ad.FieldName) e)
      | .panic => .panic
      | .ok value => readRecordFields E i rest f1 (GoMap.set record ad.FieldName value)

/-- The outer loop of `ReadRecordsBytes`: `count` iterations starting at index `i`. -/
def readRecordsLoop (E : Extern) (ads : List ArrayDescriptor) :
    Nat → Nat → File → Result (List GoMap × File)
  | 0, _, f => .ok ([], f)
  | count + 1, i, f =>
    match binaryRead 1 f with
    | .error e => .error (.wrap (.readingDeletionFlag i) e)
    | .panic => .panic
    | .ok (_, f1) =>
      match readRecordFields E i ads f1 [] with
      | .error e => .error e
      | .panic => .panic
      | .ok (record, f2) =>
        match readRecordsLoop E ads count (i + 1) f2 with
        | .error e => .error e
        | .panic => .panic
        | .ok (records, f3) => .ok (record :: records, f3)

/-- Go `make([]map[string]types.Primitive, n)` panics for a negative `n`. -/
def ReadRecordsBytes (E : Extern) (f : File) (dbfFile : DBFFile) :
    Result (List GoMap × File) :=
  if dbfFile.Header.NumberOfRecords < 0 then .panic
  else readRecordsLoop E dbfFile.ArrayDescriptors dbfFile.Header.NumberOfRecords.toNat 0 f

/-- The right-hand side of the comparison in `ReadDBFile`:
`int((dbfFile.Header.NumberOfBytesOfHeader-32)/32)`, in `int16` arithmetic with
Go's truncating division. -/
def expectedDescriptorCount (h : Header) : Int :=
  Int.tdiv (wrapInt 16 (h.NumberOfBytesOfHeader - 32)) 32

def ReadDBFile (E : Extern) (f : File) : Result (DBFFile × File) :=
  match ReadHeaderBytes f with
  | .error e => .error (.wrap .readingHeader e)
  | .panic => .panic
  | .ok (header, f1) =>
    match ReadArrayDescriptorsBytes f1 with
    | .error e => .error (.wrap .readingArrayDescriptors e)
    | .panic => .panic
    | .ok (arrayDescriptors, f2) =>
      if (arrayDescriptors.length : Int) ≠ expectedDescriptorCount header then
        .error (.countMismatch arrayDescriptors.length (expectedDescriptorCount header))
      else
        match ReadRecordsBytes E f2
            { Header := header, ArrayDescriptors := arrayDescriptors, Records := [] } with
        | .error e => .error (.wrap .readingRecords e)
        | .panic => .panic
        | .ok (records, f3) =>
          .ok ({ Header := header, ArrayDescriptors := arrayDescriptors, Records := records }, f3)

/-! ## `csv/output.go` -/

/-- The first loop of `GetCSVData`: the header row, written to the builder `sb`. -/
def writeFieldNames : Nat → List ArrayDescriptor → GoString → GoString
  | _, [], sb => sb
  | i, ad :: rest, sb =>
    writeFieldNames (i + 1) rest ((if 0 < i then sb ++ ascii "," else sb) ++ ad.FieldName)

/-- The inner loop of `GetCSVData` for one record. Calling `ToString` on the nil
interface of a missing key is a nil dereference: a panic. -/
def writeRecordFields (E : Extern) (record : GoMap) :
    Nat → List ArrayDescriptor → GoString → Result GoString
  | _, [], sb => .ok sb
  | i, ad :: rest, sb =>
    match GoMap.get record ad.FieldName with
    | none => .panic
    | some value =>
      writeRecordFields E record (i + 1) rest
        ((if 0 < i then sb ++ ascii "," else sb) ++ value.ToString E)

/-- The second loop of `GetCSVData`, over the records. -/
def writeRecords (E : Extern) (ads : List ArrayDescriptor) :
    List GoMap → GoString → Result GoString
  | [], sb => .ok sb
  | record :: rest, sb =>
    match writeRecordFields E record 0 ads (sb ++ ascii "\n") with
    | .error e => .error e
    | .panic => .panic
    | .ok sb1 => writeRecords E ads rest sb1

def GetCSVData (E : Extern) (data : DBFFile) : Result (List Byte) :=
  writeRecords E data.ArrayDescriptors data.Records
    (writeFieldNames 0 data.ArrayDescriptors [])

/-! ## Concrete inputs -/

/-- A stand-in for the external functions, used to evaluate the decoder on concrete
files: the transcoder is the identity, a decimal is a non-empty string of ASCII
digits, and no float is accepted. -/
def sampleExtern : Extern :=
  { DecodeBytes := fun b => some b
    NewFromString := fun s =>
      if s ≠ [] ∧ s.all (fun c => 48 ≤ c.val && c.val ≤ 57) then
        some { value := (s.foldl (fun acc c => 10 * acc + (c.val - 48)) 0 : Nat), exp := 0 }
      else none
    DecimalString := fun d => (Nat.toDigits 10 d.value.toNat).map (fun c => Fin.ofNat c.toNat)
    SscanfFloat := fun _ => none
    FormatFloat := fun _ => []
    TrimFuncIsSpace := fun s => s
    TrimRightFuncIsSpace := fun s => s }

/-- A 32-byte header declaring `n` records, `hb` header bytes and `rb` record bytes. -/
def sampleHeader (n hb rb : Nat) : List Byte :=
  [3, 99, 1, 2, Fin.ofNat (n % 256), Fin.ofNat (n / 256 % 256), Fin.ofNat (n / 65536 % 256),
    Fin.ofNat (n / 16777216), Fin.ofNat (hb % 256), Fin.ofNat (hb / 256),
    Fin.ofNat (rb % 256), Fin.ofNat (rb / 256)] ++ List.replicate 20 0

/-- A 32-byte descriptor with a NUL-padded name, a type tag and a field length. -/
def sampleDescriptor (name : String) (tag : Char) (len : Nat) : List Byte :=
  ascii name ++ List.replicate (11 - name.length) 0 ++ [Fin.ofNat tag.toNat, 0, 0, 0, 0,
    Fin.ofNat len, 0] ++ List.replicate 14 0

/-- One `NAME` column of type `C` and length 10, one record `ALICE`. -/
def fileAlice : File :=
  ⟨sampleHeader 1 64 11 ++ sampleDescriptor "NAME" 'C' 10 ++ [13] ++ [32] ++ ascii "ALICE"
    ++ [0, 0, 0, 0, 0], 0⟩

/-- The header declares three descriptors, two are present before the terminator. -/
def fileTwoOfThree : File :=
  ⟨sampleHeader 1 128 11 ++ sampleDescriptor "NAME" 'C' 10 ++ sampleDescriptor "B" 'C' 10
    ++ [13] ++ [32] ++ ascii "ALICE" ++ [0, 0, 0, 0, 0], 0⟩

/-- One column of the unknown type `X`, one record. -/
def fileUnknownTag : File :=
  ⟨sampleHeader 1 64 11 ++ sampleDescriptor "NAME" 'X' 10 ++ [13] ++ [32] ++ ascii "ALICE"
    ++ [0, 0, 0, 0, 0], 0⟩

/-- One column of the unknown type `X`, no record. -/
def fileUnknownTagEmpty : File :=
  ⟨sampleHeader 0 64 11 ++ sampleDescriptor "NAME" 'X' 10 ++ [13], 0⟩

/-- Two columns named `A`, of types `L` and `N`, two records. -/
def fileSameName : File :=
  ⟨sampleHeader 2 96 4 ++ sampleDescriptor "A" 'L' 1 ++ sampleDescriptor "A" 'N' 2 ++ [13]
    ++ [32] ++ ascii "T42" ++ [42] ++ ascii "y07", 0⟩

/-- One `NAME` column of length 10, a header declaring records of 3 bytes, one record. -/
def fileStride : File :=
  ⟨sampleHeader 1 64 3 ++ sampleDescriptor "NAME" 'C' 10 ++ [13] ++ [32] ++ ascii "ALICE"
    ++ [0, 0, 0, 0, 0], 0⟩

/-- The descriptor that `sampleDescriptor name tag len` encodes. -/
def sampleColumn (name : String) (tag : Char) (len : Nat) : ArrayDescriptor :=
  { FieldName := ascii name, FieldType := Fin.ofNat tag.toNat, FieldLength := Fin.ofNat len,
    FieldDecimalCount := 0, WorkAreaID := 0, Example := 0, ProductionMDXFieldFlag := false }

/-- The header that `sampleHeader n hb rb` encodes, for small `n`, `hb` and `rb`. -/
def sampleHeaderValue (n hb rb : Int) : Header :=
  { DBase := 3, LastUpdateDate := 990102, NumberOfRecords := n, NumberOfBytesOfHeader := hb,
    NumberOfBytesOfRecord := rb, IncompleteTransaction := false, EncryptionFlag := false,
    ProductionMDXFileFlag := false, LanguageDriverID := 0 }

/-- The table decoded from `fileAlice`. -/
def tableAlice : DBFFile :=
  { Header := sampleHeaderValue 1 64 11
    ArrayDescriptors := [sampleColumn "NAME" 'C' 10]
    Records := [[(ascii "NAME", .Character (ascii "ALICE"))]] }

/-- The table decoded from `fileUnknownTagEmpty`. -/
def tableUnknownTagEmpty : DBFFile :=
  { Header := sampleHeaderValue 0 64 11
    ArrayDescriptors := [sampleColumn "NAME" 'X' 10]
    Records := [] }

/-- The table decoded from `fileSameName`. -/
def tableSameName : DBFFile :=
  { Header := sampleHeaderValue 2 96 4
    ArrayDescriptors := [sampleColumn "A" 'L' 1, sampleColumn "A" 'N' 2]
    Records := [[(ascii "A", .Numeric ⟨42, 0⟩)], [(ascii "A", .Numeric ⟨7, 0⟩)]] }

/-- The table decoded from `fileStride`. -/
def tableStride : DBFFile :=
  { Header := sampleHeaderValue 1 64 3
    ArrayDescriptors := [sampleColumn "NAME" 'C' 10]
    Records := [[(ascii "NAME", .Character (ascii "ALICE"))]] }

/-- Two columns `A` and `B`, two records; a value holds a comma. -/
def tableCsv : DBFFile :=
  { Header := sampleHeaderValue 2 96 3
    ArrayDescriptors := [sampleColumn "A" 'L' 1, sampleColumn "B" 'C' 3]
    Records := [[(ascii "A", .Logical true), (ascii "B", .Character (ascii "x,y"))],
      [(ascii "B", .Memo []), (ascii "A", .Logical false)]] }

/-- A header whose record count bytes are all `0xFF`, declaring no descriptor,
followed by the terminator. -/
def fileNegativeCount : File :=
  ⟨sampleHeader 4294967295 32 1 ++ [13], 0⟩

/-- A source of 31 bytes. -/
def fileShortHeader : File :=
  ⟨(sampleHeader 1 64 11).take 31, 0⟩

/-- The bytes of `fileAlice` without the terminator and what follows it. -/
def fileNoTerminator : File :=
  ⟨sampleHeader 1 64 11 ++ sampleDescriptor "NAME" 'C' 10, 32⟩

/-- Two descriptors, the first with `0x0D` inside its name, a terminator and a
trailing byte, read from offset 3. -/
def fileTwoBlocks : File :=
  ⟨[1, 2, 3] ++ sampleDescriptor "A\rB" 'C' 10 ++ sampleDescriptor " X" 'N' 2 ++ [13, 7], 3⟩

/-- A header whose header size bytes are `00 80`, declaring no record, followed by
1023 descriptors and the terminator. -/
def fileWrappedCount : File :=
  ⟨sampleHeader 0 32768 1
    ++ ((List.replicate 1023 (sampleDescriptor "A" 'C' 1)).flatten ++ 13 :: []), 0⟩

/-! ## The CSV text of the specification -/

/-- The value of a record for a descriptor, rendered with `ToString`. -/
def csvCell (E : Extern) (record : GoMap) (ad : ArrayDescriptor) : GoString :=
  match GoMap.get record ad.FieldName with
  | some value => value.ToString E
  | none => []

/-- The CSV text as the specification words it: the field names joined by a comma,
then, for each record, a line feed and the comma-join of the record's values in
descriptor order. -/
def csvText (E : Extern) (data : DBFFile) : GoString :=
  List.intercalate [44] (data.ArrayDescriptors.map (fun ad => ad.FieldName))
    ++ (data.Records.map (fun record =>
          [10] ++ List.intercalate [44] (data.ArrayDescriptors.map (csvCell E record)))).flatten

/-! ## The field decoder -/

theorem take_length_takeWhile (p : Byte → Bool) (l : List Byte) :
    l.take (l.takeWhile p).length = l.takeWhile p := by
  induction l with
  | nil => rfl
  | cons a t ih =>
    by_cases h : p a = true
    · simp [List.takeWhile_cons, h, ih]
    · simp [List.takeWhile_cons, h]

theorem readStringLoop_eq (rest : List Byte) (i : Nat) :
    readStringLoop (i + rest.length) i rest
      = i + (rest.takeWhile (fun v => decide (v ≠ 0))).length := by
  induction rest generalizing i with
  | nil => simp [readStringLoop]
  | cons v t ih =>
    by_cases h : v = 0
    · simp [readStringLoop, h]
    · have e : i + (v :: t).length = (i + 1) + t.length := by simp; omega
      rw [e]
      simp only [readStringLoop, h, if_false, ih (i + 1)]
      simp [List.takeWhile_cons, h]; omega

theorem readString_eq_takeWhile (b : List Byte) :
    readString b = b.takeWhile (fun v => decide (v ≠ 0)) := by
  have h := readStringLoop_eq b 0
  simp only [Nat.zero_add] at h
  rw [readString, h, take_length_takeWhile]

theorem ReadField_ne_panic (E : Extern) (tag : Int) (b : List Byte) :
    ReadField E tag b ≠ .panic := by
  unfold ReadField Character.ReadFromDBF Decimal.ReadFromDBF Float.ReadFromDBF
    Logical.ReadFromDBF Memo.ReadFromDBF Numeric.ReadFromDBF
  intro h
  split_ifs at h <;> first
    | (split at h <;> simp at h)
    | (simp only [] at h; split at h <;> simp at h)

/-- Whenever `ReadField` returns a value, the tag is one of `C`, `D`, `F`, `L`, `N`. -/
theorem ReadField_ok_tag (E : Extern) (tag : Int) (b : List Byte) (v : Primitive)
    (h : ReadField E tag b = .ok v) :
    tag = 67 ∨ tag = 68 ∨ tag = 70 ∨ tag = 76 ∨ tag = 78 := by
  unfold ReadField at h
  simp only [CharacterType, DecimalType, FloatType, LogicalType, MemoType, NumericType] at h
  split_ifs at h with h1 h2 h3 h4 h5 h6
  · exact Or.inl h1
  · exact Or.inr (Or.inl h2)
  · exact Or.inr (Or.inr (Or.inl h3))
  · exact Or.inr (Or.inr (Or.inr (Or.inl h4)))
  · simp [Memo.ReadFromDBF] at h
  · exact Or.inr (Or.inr (Or.inr (Or.inr h6)))

/-! ## Reading from the file handle -/

theorem binaryRead_ne_panic (n : Nat) (f : File) : binaryRead n f ≠ .panic := by
  unfold binaryRead
  split_ifs <;> simp

theorem binaryRead_ok {n : Nat} {f f' : File} {bs : List Byte}
    (h : binaryRead n f = .ok (bs, f')) :
    f'.data = f.data ∧ f'.pos = f.pos + n ∧ bs = (f.data.drop f.pos).take n
      ∧ (0 < n → f.pos + n ≤ f.data.length) := by
  unfold binaryRead at h
  split_ifs at h with h0 h1 h2
  · simp only [Result.ok.injEq, Prod.mk.injEq] at h
    obtain ⟨rfl, rfl⟩ := h
    subst h0
    simp
  · simp only [Result.ok.injEq, Prod.mk.injEq] at h
    obtain ⟨rfl, rfl⟩ := h
    refine ⟨rfl, rfl, rfl, fun _ => by omega⟩

theorem binaryRead_error {n : Nat} {f : File} {e : Err} (h : binaryRead n f = .error e) :
    (e = .EOF ∧ f.data.length ≤ f.pos) ∨ (e = .ErrUnexpectedEOF ∧ f.pos < f.data.length) := by
  unfold binaryRead at h
  split_ifs at h with h0 h1 h2
  · simp only [Result.error.injEq] at h
    exact Or.inl ⟨h.symm, h1⟩
  · simp only [Result.error.injEq] at h
    exact Or.inr ⟨h.symm, by omega⟩

theorem Seek_zero (f : File) : Seek 0 f = .ok (f.pos, f) := by
  simp [Seek]

theorem Seek_back (f : File) (h : 0 < f.pos) :
    Seek (-1) f = .ok (f.pos - 1, { f with pos := f.pos - 1 }) := by
  unfold Seek
  have h1 : ¬ ((f.pos : Int) + -1 < 0) := by omega
  have h2 : ((f.pos : Int) + -1).toNat = f.pos - 1 := by omega
  rw [if_neg h1, h2]

theorem PeakNextByte_ne_panic (f : File) : PeakNextByte f ≠ .panic := by
  unfold PeakNextByte
  rw [Seek_zero]
  simp only
  intro h
  split at h
  · simp at h
  · rename_i hp
    exact binaryRead_ne_panic _ _ hp
  · simp at h

theorem PeakNextByte_ok {f f1 : File} {off : Nat} {c : Byte}
    (h : PeakNextByte f = .ok ((off, c), f1)) :
    off = f.pos ∧ f1.data = f.data ∧ f1.pos = f.pos + 1 ∧ f.pos < f.data.length
      ∧ c = (f.data.drop f.pos).headD 0 := by
  unfold PeakNextByte at h
  rw [Seek_zero] at h
  simp only at h
  split at h
  · simp at h
  · simp at h
  · rename_i bs f2 hb
    simp only [Result.ok.injEq, Prod.mk.injEq] at h
    obtain ⟨⟨rfl, rfl⟩, rfl⟩ := h
    obtain ⟨hd, hp, hbs, hlen⟩ := binaryRead_ok hb
    have hlt : f.pos < f.data.length := by have := hlen (by omega); omega
    refine ⟨rfl, hd, hp, hlt, ?_⟩
    subst hbs
    cases hdrop : f.data.drop f.pos with
    | nil => simp
    | cons a t => simp

theorem PeakNextByte_error {f : File} {e : Err} (h : PeakNextByte f = .error e) :
    e = .wrap (.readingNextByte f.pos) .EOF ∧ f.data.length ≤ f.pos := by
  unfold PeakNextByte at h
  rw [Seek_zero] at h
  simp only at h
  split at h
  · rename_i e' hb
    simp only [Result.error.injEq] at h
    subst h
    rcases binaryRead_error hb with ⟨rfl, hl⟩ | ⟨-, hl⟩
    · exact ⟨rfl, hl⟩
    · unfold binaryRead at hb
      split_ifs at hb <;> omega
  · simp at h
  · simp at h

/-! ## The descriptor loop -/

/-- One iteration of the descriptor loop, after a successful peek of a byte other
than the terminator: the seek back and the read of 32 bytes, which cannot hit
`io.EOF` since one byte at least is there. -/
theorem descriptor_step {f f1 : File} {off : Nat} {c : Byte}
    (h : PeakNextByte f = .ok ((off, c), f1)) :
    Seek (-1) f1 = .ok (f.pos, f) ∧ binaryRead 32 f ≠ .error .EOF := by
  obtain ⟨-, hd, hp, hlt, -⟩ := PeakNextByte_ok h
  constructor
  · rw [Seek_back f1 (by omega)]
    cases f; cases f1
    simp only [File.mk.injEq] at hd hp ⊢
    subst hd hp
    simp
  · intro he
    rcases binaryRead_error he with ⟨-, hl⟩ | ⟨hne, -⟩
    · omega
    · simp at hne

theorem ReadArrayDescriptorsLoop_ok (fuel : Nat) (f f' : File)
    (acc ads : List ArrayDescriptor)
    (h : ReadArrayDescriptorsLoop fuel f acc = .ok (ads, f')) :
    f'.data = f.data ∧ ∃ new : List ArrayDescriptor, ads = acc ++ new
      ∧ f'.pos = f.pos + 32 * new.length + 1 := by
  induction fuel generalizing f acc with
  | zero => simp [ReadArrayDescriptorsLoop] at h
  | succ n ih =>
    unfold ReadArrayDescriptorsLoop at h
    split at h
    · simp at h
    · simp at h
    · rename_i off c f1 hpk
      obtain ⟨hseek, hne⟩ := descriptor_step hpk
      obtain ⟨-, hd, hp, -, -⟩ := PeakNextByte_ok hpk
      split_ifs at h with hc
      · simp only [Result.ok.injEq, Prod.mk.injEq] at h
        obtain ⟨rfl, rfl⟩ := h
        exact ⟨hd, [], by simp, by simp [hp]⟩
      · rw [hseek] at h
        simp only at h
        split at h
        · rename_i e hb
          split_ifs at h with he
          · subst he
            exact absurd hb hne
        · simp at h
        · rename_i bs f3 hb
          obtain ⟨hd3, hp3, -, -⟩ := binaryRead_ok hb
          obtain ⟨hd', new, hads, hpos⟩ := ih f3 _ h
          refine ⟨hd'.trans hd3, decodeArrayDescriptor bs :: new, by simp [hads], ?_⟩
          rw [hpos, hp3]
          simp only [List.length_cons]
          omega

theorem ReadArrayDescriptorsLoop_fuel (fuel : Nat) (f : File) (acc : List ArrayDescriptor)
    (hfuel : f.data.length - f.pos < fuel) :
    ReadArrayDescriptorsLoop fuel f acc ≠ .error .fuelExhausted
      ∧ ReadArrayDescriptorsLoop fuel f acc ≠ .panic := by
  induction fuel generalizing f acc with
  | zero => omega
  | succ n ih =>
    unfold ReadArrayDescriptorsLoop
    split
    · simp
    · rename_i hpk
      exact absurd hpk (PeakNextByte_ne_panic f)
    · rename_i off c f1 hpk
      obtain ⟨hseek, hne⟩ := descriptor_step hpk
      obtain ⟨-, hd, hp, hlt, -⟩ := PeakNextByte_ok hpk
      split_ifs with hc
      · simp
      · rw [hseek]
        simp only
        split
        · split_ifs <;> simp
        · rename_i hb
          exact absurd hb (binaryRead_ne_panic _ _)
        · rename_i bs f3 hb
          obtain ⟨hd3, hp3, -, hlen⟩ := binaryRead_ok hb
          have := hlen (by omega)
          exact ih f3 _ (by rw [hd3, hp3]; omega)

theorem ReadArrayDescriptorsBytes_fuel (f : File) :
    ReadArrayDescriptorsBytes f ≠ .error .fuelExhausted
      ∧ ReadArrayDescriptorsBytes f ≠ .panic :=
  ReadArrayDescriptorsLoop_fuel _ f [] (by omega)

theorem ReadArrayDescriptorsBytes_ok {f f' : File} {ads : List ArrayDescriptor}
    (h : ReadArrayDescriptorsBytes f = .ok (ads, f')) :
    f'.data = f.data ∧ f'.pos = f.pos + 32 * ads.length + 1 := by
  obtain ⟨hd, new, hads, hpos⟩ := ReadArrayDescriptorsLoop_ok _ f f' [] ads h
  simp only [List.nil_append] at hads
  subst hads
  exact ⟨hd, hpos⟩

theorem ReadHeaderBytes_ok {f f' : File} {hdr : Header}
    (h : ReadHeaderBytes f = .ok (hdr, f')) :
    f'.data = f.data ∧ f'.pos = f.pos + 32 ∧ f.pos + 32 ≤ f.data.length
      ∧ hdr = decodeHeader ((f.data.drop f.pos).take 32) := by
  unfold ReadHeaderBytes at h
  split at h
  · simp at h
  · simp at h
  · rename_i bs f1 hb
    simp only [Result.ok.injEq, Prod.mk.injEq] at h
    obtain ⟨rfl, rfl⟩ := h
    obtain ⟨hd, hp, hbs, hlen⟩ := binaryRead_ok hb
    exact ⟨hd, hp, hlen (by omega), by rw [hbs]⟩

/-! ## Go maps -/

theorem GoMap.mem_keys_set (m : GoMap) (k k' : GoString) (v : Primitive) :
    k ∈ GoMap.keys (GoMap.set m k' v) ↔ k = k' ∨ k ∈ GoMap.keys m := by
  induction m with
  | nil => simp [GoMap.set, GoMap.keys]
  | cons p t ih =>
    obtain ⟨k0, v0⟩ := p
    simp only [GoMap.keys] at ih
    by_cases h : k0 = k'
    · subst h
      simp [GoMap.set, GoMap.keys]
    · simp only [GoMap.set, h, if_false, GoMap.keys, List.map_cons, List.mem_cons, ih]
      tauto

theorem GoMap.nodup_keys_set (m : GoMap) (k' : GoString) (v : Primitive)
    (h : (GoMap.keys m).Nodup) : (GoMap.keys (GoMap.set m k' v)).Nodup := by
  induction m with
  | nil => simp [GoMap.set, GoMap.keys]
  | cons p t ih =>
    obtain ⟨k0, v0⟩ := p
    simp only [GoMap.keys, List.map_cons, List.nodup_cons] at h
    by_cases hk : k0 = k'
    · subst hk
      simp only [GoMap.set, if_true, GoMap.keys, List.map_cons, List.nodup_cons]
      exact h
    · simp only [GoMap.set, hk, if_false, GoMap.keys, List.map_cons, List.nodup_cons]
      refine ⟨?_, ih h.2⟩
      intro hmem
      have := (GoMap.mem_keys_set t k0 k' v).1 hmem
      rcases this with h1 | h1
      · exact hk h1
      · exact h.1 h1

/-! ## The record loops -/

theorem readRecordFields_ne_panic (E : Extern) (i : Nat) (ads : List ArrayDescriptor)
    (f : File) (record : GoMap) : readRecordFields E i ads f record ≠ .panic := by
  induction ads generalizing f record with
  | nil => simp [readRecordFields]
  | cons ad rest ih =>
    unfold readRecordFields
    split
    · simp
    · rename_i hb
      exact absurd hb (binaryRead_ne_panic _ _)
    · split
      · simp
      · rename_i hr
        exact absurd hr (ReadField_ne_panic _ _ _)
      · exact ih _ _

theorem readRecordFields_ok (E : Extern) (i : Nat) (ads : List ArrayDescriptor)
    (f f' : File) (record record' : GoMap)
    (h : readRecordFields E i ads f record = .ok (record', f')) :
    f'.data = f.data
      ∧ f'.pos = f.pos + (ads.map (fun ad => ad.FieldLength.val)).sum
      ∧ (∀ k, k ∈ GoMap.keys record' ↔
          k ∈ GoMap.keys record ∨ k ∈ ads.map (fun ad => ad.FieldName))
      ∧ ((GoMap.keys record).Nodup → (GoMap.keys record').Nodup)
      ∧ (∀ ad ∈ ads, byteVal ad.FieldType = 67 ∨ byteVal ad.FieldType = 68
          ∨ byteVal ad.FieldType = 70 ∨ byteVal ad.FieldType = 76
          ∨ byteVal ad.FieldType = 78) := by
  induction ads generalizing f record with
  | nil =>
    simp only [readRecordFields, Result.ok.injEq, Prod.mk.injEq] at h
    obtain ⟨rfl, rfl⟩ := h
    simp
  | cons ad rest ih =>
    unfold readRecordFields at h
    split at h
    · simp at h
    · simp at h
    · rename_i b f1 hb
      obtain ⟨hd1, hp1, -, -⟩ := binaryRead_ok hb
      split at h
      · simp at h
      · simp at h
      · rename_i value hv
        obtain ⟨hd, hp, hk, hn, ht⟩ := ih f1 _ h
        refine ⟨hd.trans hd1, ?_, ?_, ?_, ?_⟩
        · rw [hp, hp1]
          simp only [List.map_cons, List.sum_cons]
          omega
        · intro k
          rw [hk k, GoMap.mem_keys_set]
          simp only [List.map_cons, List.mem_cons]
          tauto
        · intro hnd
          exact hn (GoMap.nodup_keys_set _ _ _ hnd)
        · intro a ha
          rcases List.mem_cons.1 ha with rfl | ha
          · exact ReadField_ok_tag E _ _ _ hv
          · exact ht a ha

theorem readRecordsLoop_ne_panic (E : Extern) (ads : List ArrayDescriptor)
    (count i : Nat) (f : File) : readRecordsLoop E ads count i f ≠ .panic := by
  induction count generalizing i f with
  | zero => simp [readRecordsLoop]
  | succ n ih =>
    unfold readRecordsLoop
    split
    · simp
    · rename_i hb
      exact absurd hb (binaryRead_ne_panic _ _)
    · split
      · simp
      · rename_i hr
        exact absurd hr (readRecordFields_ne_panic _ _ _ _ _)
      · split
        · simp
        · rename_i hr
          exact absurd hr (ih _ _)
        · simp

theorem readRecordsLoop_ok (E : Extern) (ads : List ArrayDescriptor)
    (count i : Nat) (f f' : File) (records : List GoMap)
    (h : readRecordsLoop E ads count i f = .ok (records, f')) :
    records.length = count ∧ f'.data = f.data
      ∧ f'.pos = f.pos + count * (1 + (ads.map (fun ad => ad.FieldLength.val)).sum)
      ∧ ∀ r ∈ records, ∃ j f0 f1, readRecordFields E j ads f0 [] = .ok (r, f1) := by
  induction count generalizing i f records with
  | zero =>
    simp only [readRecordsLoop, Result.ok.injEq, Prod.mk.injEq] at h
    obtain ⟨rfl, rfl⟩ := h
    simp
  | succ n ih =>
    unfold readRecordsLoop at h
    split at h
    · simp at h
    · simp at h
    · rename_i b f1 hb
      obtain ⟨hd1, hp1, -, -⟩ := binaryRead_ok hb
      split at h
      · simp at h
      · simp at h
      · rename_i record f2 hr
        obtain ⟨hd2, hp2, -, -, -⟩ := readRecordFields_ok E i ads f1 f2 [] record hr
        split at h
        · simp at h
        · simp at h
        · rename_i recs f3 hl
          simp only [Result.ok.injEq, Prod.mk.injEq] at h
          obtain ⟨rfl, rfl⟩ := h
          obtain ⟨hlen, hd3, hp3, hall⟩ := ih _ _ _ hl
          refine ⟨by simp [hlen], hd3.trans (hd2.trans hd1), ?_, ?_⟩
          · rw [hp3, hp2, hp1]
            ring
          · intro r hr'
            rcases List.mem_cons.1 hr' with rfl | hr'
            · exact ⟨i, f1, f2, hr⟩
            · exact hall r hr'

/-- What a successful `ReadDBFile` went through. -/
theorem ReadDBFile_ok {E : Extern} {f f' : File} {t : DBFFile}
    (h : ReadDBFile E f = .ok (t, f')) :
    ∃ f1 f2, ReadHeaderBytes f = .ok (t.Header, f1)
      ∧ ReadArrayDescriptorsBytes f1 = .ok (t.ArrayDescriptors, f2)
      ∧ (t.ArrayDescriptors.length : Int) = expectedDescriptorCount t.Header
      ∧ 0 ≤ t.Header.NumberOfRecords
      ∧ readRecordsLoop E t.ArrayDescriptors t.Header.NumberOfRecords.toNat 0 f2
          = .ok (t.Records, f') := by
  unfold ReadDBFile at h
  split at h
  · simp at h
  · simp at h
  · rename_i header f1 hh
    split at h
    · simp at h
    · simp at h
    · rename_i ads f2 ha
      split_ifs at h with hc
      split at h
      · simp at h
      · simp at h
      · rename_i records f3 hr
        simp only [Result.ok.injEq, Prod.mk.injEq] at h
        obtain ⟨rfl, rfl⟩ := h
        unfold ReadRecordsBytes at hr
        simp only at hr
        split_ifs at hr with hneg
        refine ⟨f1, f2, hh, ha, by simpa using hc, ?_, hr⟩
        show 0 ≤ header.NumberOfRecords
        omega

/-- C1 (the claim fails): `ReadField` on the `M` tag and the empty slice does not
return a Memo value, it returns an error. -/
theorem ReadField_memo_counterexample :
    ¬ ∃ v, ReadField sampleExtern MemoType [] = .ok v
        ∧ v.ToString sampleExtern = ascii "MEMO FIELD (NOT SUPPORTED)" := by
  rintro ⟨v, h, -⟩
  simp [ReadField, MemoType, CharacterType, DecimalType, FloatType, LogicalType,
    Memo.ReadFromDBF] at h

/-- C1 (amended): for every byte slice `b`, `ReadField` on the `M` tag returns the
error "memo is unsupported" and no value, whatever `b` holds; `ToString` of every
Memo value is the literal `MEMO FIELD (NOT SUPPORTED)`. -/
theorem ReadField_memo (E : Extern) (b : List Byte) :
    ReadField E MemoType b = .error .memoUnsupported
      ∧ ∀ s, (Primitive.Memo s).ToString E
          = [77, 69, 77, 79, 32, 70, 73, 69, 76, 68, 32, 40, 78, 79, 84, 32, 83, 85, 80, 80,
              79, 82, 84, 69, 68, 41] := by
  constructor
  · simp [ReadField, MemoType, CharacterType, DecimalType, FloatType, LogicalType,
      Memo.ReadFromDBF]
  · intro s
    show ascii "MEMO FIELD (NOT SUPPORTED)" = _
    decide

/-- C2: for every byte slice `b`, `ReadField` on the `L` tag returns a Logical and
never fails; the Logical is true exactly when the bytes of `b` before its first
zero byte (all of `b` when it has none) are one of the one-byte strings `T`, `t`,
`Y`, `y`; `ToString` is `true` in exactly those cases and `false` in all others. -/
theorem ReadField_logical (E : Extern) (b : List Byte) :
    ∃ l : Bool, ReadField E LogicalType b = .ok (.Logical l)
      ∧ (l = true ↔ (b.takeWhile (fun v => decide (v ≠ 0)) = [84]
            ∨ b.takeWhile (fun v => decide (v ≠ 0)) = [116]
            ∨ b.takeWhile (fun v => decide (v ≠ 0)) = [89]
            ∨ b.takeWhile (fun v => decide (v ≠ 0)) = [121]))
      ∧ ((Primitive.Logical l).ToString E = [116, 114, 117, 101] ↔ l = true)
      ∧ ((Primitive.Logical l).ToString E = [102, 97, 108, 115, 101] ↔ l = false) := by
  have hT : ascii "T" = [84] := by decide
  have ht : ascii "t" = [116] := by decide
  have hY : ascii "Y" = [89] := by decide
  have hy : ascii "y" = [121] := by decide
  have htrue : ascii "true" = [116, 114, 117, 101] := by decide
  have hfalse : ascii "false" = [102, 97, 108, 115, 101] := by decide
  have hrf : ReadField E LogicalType b = Logical.ReadFromDBF b := by
    simp [ReadField, LogicalType, CharacterType, DecimalType, FloatType]
  rw [hrf]
  unfold Logical.ReadFromDBF
  simp only [readString_eq_takeWhile, hT, ht, hY, hy]
  by_cases hc : (b.takeWhile (fun v => decide (v ≠ 0)) = [84]
            ∨ b.takeWhile (fun v => decide (v ≠ 0)) = [116]
            ∨ b.takeWhile (fun v => decide (v ≠ 0)) = [89]
            ∨ b.takeWhile (fun v => decide (v ≠ 0)) = [121])
  · refine ⟨true, by rw [if_pos hc], ⟨fun _ => hc, fun _ => rfl⟩, ?_, ?_⟩
    · simp [Primitive.ToString, FormatBool, htrue]
    · simp [Primitive.ToString, FormatBool, htrue]
  · refine ⟨false, by rw [if_neg hc], ⟨fun h => by simp at h, fun h => absurd h hc⟩, ?_, ?_⟩
    · simp [Primitive.ToString, FormatBool, hfalse]
    · simp [Primitive.ToString, FormatBool, hfalse]

/-! ## The orchestrator -/

theorem wrapInt16_bounds (x : Int) : -32768 ≤ wrapInt 16 x ∧ wrapInt 16 x < 32768 := by
  unfold wrapInt
  norm_num
  omega

theorem wrapInt16_id (x : Int) (h1 : -32768 ≤ x) (h2 : x < 32768) : wrapInt 16 x = x := by
  unfold wrapInt
  norm_num
  omega

theorem decodeHeader_bounds (bs : List Byte) :
    -32768 ≤ (decodeHeader bs).NumberOfBytesOfHeader
      ∧ (decodeHeader bs).NumberOfBytesOfHeader < 32768 :=
  wrapInt16_bounds _

theorem expectedDescriptorCount_le (h : Header) : expectedDescriptorCount h ≤ 1023 := by
  unfold expectedDescriptorCount
  obtain ⟨h1, h2⟩ := wrapInt16_bounds (h.NumberOfBytesOfHeader - 32)
  generalize wrapInt 16 (h.NumberOfBytesOfHeader - 32) = x at h1 h2
  by_cases hx : 0 ≤ x
  · rw [Int.tdiv_eq_ediv hx (by omega)]
    omega
  · have e : Int.tdiv x 32 = - Int.tdiv (-x) 32 := by simp [Int.neg_tdiv]
    rw [e, Int.tdiv_eq_ediv (by omega) (by omega)]
    omega

/-- The two ways in which a descriptor count can equal the quotient of the code:
without wrap-around, for a positive header size, or with it, for a header size
between -32768 and -32737. -/
theorem descriptorCount_cases (n : Nat) (h : Header)
    (h1 : -32768 ≤ h.NumberOfBytesOfHeader) (h2 : h.NumberOfBytesOfHeader < 32768)
    (hc : (n : Int) = expectedDescriptorCount h) :
    (1 ≤ h.NumberOfBytesOfHeader ∧ (n : Int) = Int.tdiv (h.NumberOfBytesOfHeader - 32) 32)
      ∨ (-32768 ≤ h.NumberOfBytesOfHeader ∧ h.NumberOfBytesOfHeader ≤ -32737 ∧ n = 1023) := by
  unfold expectedDescriptorCount at hc
  by_cases hw : -32736 ≤ h.NumberOfBytesOfHeader
  · left
    rw [wrapInt16_id _ (by omega) (by omega)] at hc
    refine ⟨?_, hc⟩
    by_contra hle
    have e : ∀ x : Int, Int.tdiv x 32 = - Int.tdiv (-x) 32 := fun x => by
      rw [Int.neg_tdiv, neg_neg]
    rw [e, Int.tdiv_eq_ediv (by omega) (by omega)] at hc
    omega
  · right
    have hwrap : wrapInt 16 (h.NumberOfBytesOfHeader - 32)
        = h.NumberOfBytesOfHeader - 32 + 65536 := by
      unfold wrapInt
      norm_num
      omega
    rw [hwrap, Int.tdiv_eq_ediv (by omega) (by omega)] at hc
    refine ⟨h1, by omega, by omega⟩

/-- C3 (amended): whenever `ReadDBFile` succeeds, the number of returned descriptors
is the quotient that the code computes, `(Header.NumberOfBytesOfHeader - 32) / 32` in
`int16` arithmetic with Go's truncating division: it is the plain quotient
`(H - 32) / 32` whenever `H = NumberOfBytesOfHeader` is positive (with either
rounding when `H` is at least 32), and otherwise `H` lies between -32768 and -32737,
the subtraction wraps around and the number of descriptors is 1023; and whenever the
header and the descriptors are read and the number of descriptors before the
terminator differs from the quotient that the code computes, `ReadDBFile` returns
the count-mismatch error, which is raised before any record is read. -/
theorem ReadDBFile_descriptor_count (E : Extern) (f : File) :
    (∀ t f', ReadDBFile E f = .ok (t, f') →
      (t.ArrayDescriptors.length : Int)
          = Int.tdiv (wrapInt 16 (t.Header.NumberOfBytesOfHeader - 32)) 32
        ∧ (32 ≤ t.Header.NumberOfBytesOfHeader →
            (t.ArrayDescriptors.length : Int) = (t.Header.NumberOfBytesOfHeader - 32) / 32)
        ∧ ((1 ≤ t.Header.NumberOfBytesOfHeader
              ∧ (t.ArrayDescriptors.length : Int)
                  = Int.tdiv (t.Header.NumberOfBytesOfHeader - 32) 32)
            ∨ (-32768 ≤ t.Header.NumberOfBytesOfHeader
                ∧ t.Header.NumberOfBytesOfHeader ≤ -32737
                ∧ t.ArrayDescriptors.length = 1023)))
    ∧ (∀ hdr f1 ads f2, ReadHeaderBytes f = .ok (hdr, f1) →
        ReadArrayDescriptorsBytes f1 = .ok (ads, f2) →
        (ads.length : Int) ≠ Int.tdiv (wrapInt 16 (hdr.NumberOfBytesOfHeader - 32)) 32 →
        ReadDBFile E f = .error (.countMismatch ads.length
          (Int.tdiv (wrapInt 16 (hdr.NumberOfBytesOfHeader - 32)) 32))) := by
  constructor
  · intro t f' h
    obtain ⟨f1, f2, hh, -, hc, -, -⟩ := ReadDBFile_ok h
    obtain ⟨-, -, -, hdec⟩ := ReadHeaderBytes_ok hh
    have hb := decodeHeader_bounds ((f.data.drop f.pos).take 32)
    rw [← hdec] at hb
    refine ⟨hc, fun h32 => ?_, ?_⟩
    · rw [hc, expectedDescriptorCount, wrapInt16_id _ (by omega) (by omega),
        Int.tdiv_eq_ediv (by omega) (by omega)]
    · exact descriptorCount_cases _ _ hb.1 hb.2 hc
  · intro hdr f1 ads f2 hh ha hne
    unfold ReadDBFile
    rw [hh]
    simp only
    rw [ha]
    simp only [expectedDescriptorCount]
    rw [if_pos hne]

/-- C3 (witness): a header declaring three descriptors followed by two descriptors
and the terminator. -/
theorem ReadDBFile_descriptor_count_witness :
    ReadDBFile sampleExtern fileTwoOfThree = .error (.countMismatch 2 3) :=
  (ReadDBFile_descriptor_count sampleExtern fileTwoOfThree).2
    (sampleHeaderValue 1 128 11) ⟨fileTwoOfThree.data, 32⟩
    [sampleColumn "NAME" 'C' 10, sampleColumn "B" 'C' 10] ⟨fileTwoOfThree.data, 97⟩
    (by decide) (by decide) (by decide)

/-- C4: whenever `ReadDBFile` succeeds, the number of returned records is the
`NumberOfRecords` of the returned header. -/
theorem ReadDBFile_record_count (E : Extern) (f f' : File) (t : DBFFile)
    (h : ReadDBFile E f = .ok (t, f')) :
    (t.Records.length : Int) = t.Header.NumberOfRecords := by
  obtain ⟨f1, f2, -, -, -, hn, hr⟩ := ReadDBFile_ok h
  obtain ⟨hlen, -, -, -⟩ := readRecordsLoop_ok _ _ _ _ _ _ _ hr
  rw [hlen]
  omega

/-- C4 (witness): the one-record file `fileAlice`. -/
theorem ReadDBFile_record_count_witness :
    ReadDBFile sampleExtern fileAlice = .ok (tableAlice, ⟨fileAlice.data, 76⟩)
      ∧ (tableAlice.Records.length : Int) = tableAlice.Header.NumberOfRecords :=
  ⟨by decide,
    ReadDBFile_record_count sampleExtern fileAlice ⟨fileAlice.data, 76⟩ tableAlice (by decide)⟩

/-- C5: whenever `ReadDBFile` succeeds, the keys of every returned record are
exactly the `FieldName` values of the returned descriptors. -/
theorem ReadDBFile_record_keys (E : Extern) (f f' : File) (t : DBFFile)
    (h : ReadDBFile E f = .ok (t, f')) :
    ∀ r ∈ t.Records, ∀ k : GoString,
      k ∈ GoMap.keys r ↔ k ∈ t.ArrayDescriptors.map (fun ad => ad.FieldName) := by
  obtain ⟨f1, f2, -, -, -, -, hr⟩ := ReadDBFile_ok h
  obtain ⟨-, -, -, hall⟩ := readRecordsLoop_ok _ _ _ _ _ _ _ hr
  intro r hmem k
  obtain ⟨j, f0, f3, hrec⟩ := hall r hmem
  obtain ⟨-, -, hk, -, -⟩ := readRecordFields_ok _ _ _ _ _ _ _ hrec
  rw [hk k]
  simp [GoMap.keys]

/-- C5 (witness): the file `fileSameName`, two records over two descriptors. -/
theorem ReadDBFile_record_keys_witness :
    ReadDBFile sampleExtern fileSameName = .ok (tableSameName, ⟨fileSameName.data, 105⟩)
      ∧ ∀ r ∈ tableSameName.Records, ∀ k : GoString,
          k ∈ GoMap.keys r ↔ k ∈ tableSameName.ArrayDescriptors.map (fun ad => ad.FieldName) :=
  ⟨by decide,
    ReadDBFile_record_keys sampleExtern fileSameName ⟨fileSameName.data, 105⟩ tableSameName
      (by decide)⟩

/-- C7: for every type tag outside `C`, `D`, `F`, `L`, `M`, `N` and every byte
slice, `ReadField` returns the "unrecognized type" error carrying the tag and no
value; and `ReadDBFile` returns an error on every file whose header declares at
least one record and one of whose descriptors has such a tag. -/
theorem ReadField_unrecognized (E : Extern) (tag : Int)
    (htag : tag ≠ 67 ∧ tag ≠ 68 ∧ tag ≠ 70 ∧ tag ≠ 76 ∧ tag ≠ 77 ∧ tag ≠ 78) :
    (∀ b, ReadField E tag b = .error (.unrecognizedType tag))
    ∧ (∀ f hdr f1 ads f2, ReadHeaderBytes f = .ok (hdr, f1) →
        ReadArrayDescriptorsBytes f1 = .ok (ads, f2) →
        1 ≤ hdr.NumberOfRecords →
        (∃ ad ∈ ads, byteVal ad.FieldType = tag) →
        ∃ e, ReadDBFile E f = .error e) := by
  obtain ⟨h1, h2, h3, h4, h5, h6⟩ := htag
  constructor
  · intro b
    simp [ReadField, CharacterType, DecimalType, FloatType, LogicalType, MemoType,
      NumericType, h1, h2, h3, h4, h5, h6]
  · intro f hdr f1 ads f2 hh ha hn hbad
    cases hres : ReadDBFile E f with
    | error e => exact ⟨e, rfl⟩
    | panic =>
      exfalso
      unfold ReadDBFile at hres
      rw [hh] at hres
      simp only at hres
      rw [ha] at hres
      simp only at hres
      split_ifs at hres
      unfold ReadRecordsBytes at hres
      simp only at hres
      rw [if_neg (by omega)] at hres
      split at hres
      · simp at hres
      · rename_i hp
        exact readRecordsLoop_ne_panic _ _ _ _ _ hp
      · simp at hres
    | ok v =>
      exfalso
      obtain ⟨t, f'⟩ := v
      obtain ⟨g1, g2, hh', ha', -, -, hr⟩ := ReadDBFile_ok hres
      rw [hh] at hh'
      simp only [Result.ok.injEq, Prod.mk.injEq] at hh'
      obtain ⟨hhdr, rfl⟩ := hh'
      rw [ha] at ha'
      simp only [Result.ok.injEq, Prod.mk.injEq] at ha'
      obtain ⟨hads, rfl⟩ := ha'
      rw [← hhdr, ← hads] at hr
      obtain ⟨hlen, -, -, hall⟩ := readRecordsLoop_ok _ _ _ _ _ _ _ hr
      have hpos : 0 < t.Records.length := by rw [hlen]; omega
      obtain ⟨r, hr'⟩ := List.exists_mem_of_length_pos hpos
      obtain ⟨j, f0, f3, hrec⟩ := hall r hr'
      obtain ⟨-, -, -, -, ht⟩ := readRecordFields_ok _ _ _ _ _ _ _ hrec
      obtain ⟨ad, hmem, had⟩ := hbad
      have := ht ad hmem
      rw [had] at this
      omega

/-- C7 (witness): the tag `X` and the one-record file `fileUnknownTag`. -/
theorem ReadField_unrecognized_witness :
    (∀ b, ReadField sampleExtern 88 b = .error (.unrecognizedType 88))
      ∧ ∃ e, ReadDBFile sampleExtern fileUnknownTag = .error e :=
  ⟨(ReadField_unrecognized sampleExtern 88 (by decide)).1,
    (ReadField_unrecognized sampleExtern 88 (by decide)).2 fileUnknownTag
      (sampleHeaderValue 1 64 11) ⟨fileUnknownTag.data, 32⟩
      [sampleColumn "NAME" 'X' 10] ⟨fileUnknownTag.data, 65⟩
      (by decide) (by decide) (by decide) ⟨sampleColumn "NAME" 'X' 10, by decide, by decide⟩⟩

/-- C8 (the claim fails): `ReadDBFile` succeeds on `fileUnknownTagEmpty`, which
declares no record, and returns a descriptor whose tag `X` is not recognized. -/
theorem ReadDBFile_tags_counterexample :
    ReadDBFile sampleExtern fileUnknownTagEmpty
        = .ok (tableUnknownTagEmpty, ⟨fileUnknownTagEmpty.data, 65⟩)
      ∧ ∃ ad ∈ tableUnknownTagEmpty.ArrayDescriptors,
          byteVal ad.FieldType ≠ 67 ∧ byteVal ad.FieldType ≠ 68 ∧ byteVal ad.FieldType ≠ 70
            ∧ byteVal ad.FieldType ≠ 76 ∧ byteVal ad.FieldType ≠ 77
            ∧ byteVal ad.FieldType ≠ 78 :=
  ⟨by decide, sampleColumn "NAME" 'X' 10, by decide, by decide⟩

/-- C8 (amended): whenever `ReadDBFile` succeeds on a file whose header declares at
least one record, the `FieldType` of every returned descriptor is one of the
recognized tags, and more precisely one of `C`, `D`, `F`, `L`, `N`. -/
theorem ReadDBFile_tags (E : Extern) (f f' : File) (t : DBFFile)
    (h : ReadDBFile E f = .ok (t, f')) (hn : 1 ≤ t.Header.NumberOfRecords) :
    ∀ ad ∈ t.ArrayDescriptors,
      byteVal ad.FieldType = 67 ∨ byteVal ad.FieldType = 68 ∨ byteVal ad.FieldType = 70
        ∨ byteVal ad.FieldType = 76 ∨ byteVal ad.FieldType = 78 := by
  obtain ⟨f1, f2, -, -, -, -, hr⟩ := ReadDBFile_ok h
  obtain ⟨hlen, -, -, hall⟩ := readRecordsLoop_ok _ _ _ _ _ _ _ hr
  have hpos : 0 < t.Records.length := by rw [hlen]; omega
  obtain ⟨r, hr'⟩ := List.exists_mem_of_length_pos hpos
  obtain ⟨j, f0, f3, hrec⟩ := hall r hr'
  exact (readRecordFields_ok _ _ _ _ _ _ _ hrec).2.2.2.2

/-- C8 (witness): the one-record file `fileAlice`. -/
theorem ReadDBFile_tags_witness :
    ReadDBFile sampleExtern fileAlice = .ok (tableAlice, ⟨fileAlice.data, 76⟩)
      ∧ ∀ ad ∈ tableAlice.ArrayDescriptors,
          byteVal ad.FieldType = 67 ∨ byteVal ad.FieldType = 68 ∨ byteVal ad.FieldType = 70
            ∨ byteVal ad.FieldType = 76 ∨ byteVal ad.FieldType = 78 :=
  ⟨by decide,
    ReadDBFile_tags sampleExtern fileAlice ⟨fileAlice.data, 76⟩ tableAlice (by decide)
      (by decide)⟩

/-- C9 (the claim fails): `ReadDBFile` succeeds on `fileSameName`, whose two
descriptors are both named `A`, and each record has one entry for the two
descriptors. -/
theorem ReadDBFile_names_counterexample :
    ReadDBFile sampleExtern fileSameName = .ok (tableSameName, ⟨fileSameName.data, 105⟩)
      ∧ ¬ (tableSameName.ArrayDescriptors.map (fun ad => ad.FieldName)).Nodup
      ∧ ∀ r ∈ tableSameName.Records, r.length ≠ tableSameName.ArrayDescriptors.length :=
  ⟨by decide, by decide, by decide⟩

/-- C9 (amended): whenever `ReadDBFile` succeeds, every record has exactly as many
entries as there are distinct `FieldName` values among the returned descriptors, and
no key twice; this is the number of descriptors exactly when the names are pairwise
distinct, which `ReadDBFile` does not require. -/
theorem ReadDBFile_record_size (E : Extern) (f f' : File) (t : DBFFile)
    (h : ReadDBFile E f = .ok (t, f')) :
    ∀ r ∈ t.Records,
      (GoMap.keys r).Nodup
        ∧ r.length = (t.ArrayDescriptors.map (fun ad => ad.FieldName)).dedup.length
        ∧ (r.length = t.ArrayDescriptors.length
            ↔ (t.ArrayDescriptors.map (fun ad => ad.FieldName)).Nodup) := by
  obtain ⟨f1, f2, -, -, -, -, hr⟩ := ReadDBFile_ok h
  obtain ⟨-, -, -, hall⟩ := readRecordsLoop_ok _ _ _ _ _ _ _ hr
  intro r hmem
  obtain ⟨j, f0, f3, hrec⟩ := hall r hmem
  obtain ⟨-, -, hk, hnd, -⟩ := readRecordFields_ok _ _ _ _ _ _ _ hrec
  have hnd' : (GoMap.keys r).Nodup := hnd (by simp [GoMap.keys])
  have hperm : (GoMap.keys r).Perm (t.ArrayDescriptors.map (fun ad => ad.FieldName)).dedup := by
    rw [List.perm_ext_iff_of_nodup hnd' (List.nodup_dedup _)]
    intro k
    rw [hk k, List.mem_dedup]
    simp [GoMap.keys]
  have hlen : r.length = (t.ArrayDescriptors.map (fun ad => ad.FieldName)).dedup.length := by
    rw [← hperm.length_eq]
    simp [GoMap.keys]
  refine ⟨hnd', hlen, ?_⟩
  rw [hlen]
  constructor
  · intro he
    rw [← List.dedup_eq_self]
    exact (List.dedup_sublist _).eq_of_length (by rw [he]; simp)
  · intro hn
    rw [List.dedup_eq_self.2 hn]
    simp

/-- C9 (witness): the file `fileSameName`. -/
theorem ReadDBFile_record_size_witness :
    ReadDBFile sampleExtern fileSameName = .ok (tableSameName, ⟨fileSameName.data, 105⟩)
      ∧ ∀ r ∈ tableSameName.Records,
          (GoMap.keys r).Nodup
            ∧ r.length = (tableSameName.ArrayDescriptors.map (fun ad => ad.FieldName)).dedup.length
            ∧ (r.length = tableSameName.ArrayDescriptors.length
                ↔ (tableSameName.ArrayDescriptors.map (fun ad => ad.FieldName)).Nodup) :=
  ⟨by decide,
    ReadDBFile_record_size sampleExtern fileSameName ⟨fileSameName.data, 105⟩ tableSameName
      (by decide)⟩

/-! ## The record stride -/

theorem wrapInt64_id (x : Int) (h1 : 0 ≤ x) (h2 : x < 9223372036854775808) :
    wrapInt 64 x = x := by
  unfold wrapInt
  norm_num
  omega

theorem foldl_fieldLength (ads : List ArrayDescriptor) (acc : Int) (h0 : 0 ≤ acc)
    (hb : acc + 255 * ads.length < 9223372036854775808) :
    ads.foldl (fun sum ad => wrapInt 64 (sum + byteVal ad.FieldLength)) acc
      = acc + ((ads.map (fun ad => ad.FieldLength.val)).sum : Nat) := by
  induction ads generalizing acc with
  | nil => simp
  | cons ad rest ih =>
    have hlt : ad.FieldLength.val < 256 := ad.FieldLength.isLt
    simp only [List.length_cons, Nat.cast_add, Nat.cast_one] at hb
    simp only [List.foldl_cons, List.map_cons, List.sum_cons, Nat.cast_add]
    have hw : wrapInt 64 (acc + byteVal ad.FieldLength) = acc + byteVal ad.FieldLength := by
      apply wrapInt64_id
      · unfold byteVal; omega
      · unfold byteVal; omega
    rw [hw, ih _ (by unfold byteVal; omega) (by unfold byteVal; omega)]
    unfold byteVal
    omega

/-- C10 (the claim fails): `ReadDBFile` succeeds on `fileStride`, whose header
declares records of 3 bytes and whose only descriptor has length 10. -/
theorem ReadDBFile_stride_counterexample :
    ReadDBFile sampleExtern fileStride = .ok (tableStride, ⟨fileStride.data, 76⟩)
      ∧ tableStride.recordBytesCount ≠ tableStride.Header.NumberOfBytesOfRecord - 1 :=
  ⟨by decide, by decide⟩

/-- C10 (amended): whenever `ReadDBFile` succeeds, the sum of `FieldLength` over the
returned descriptors, which `recordBytesCount` computes without overflow, is the
record stride that the decoder used minus the deletion-flag byte: the cursor ends
`32 + 32 * k + 1 + NumberOfRecords * (1 + sum)` bytes after its start, for `k`
descriptors. `Header.NumberOfBytesOfRecord` takes no part. -/
theorem ReadDBFile_stride (E : Extern) (f f' : File) (t : DBFFile)
    (h : ReadDBFile E f = .ok (t, f')) :
    t.recordBytesCount = ((t.ArrayDescriptors.map (fun ad => ad.FieldLength.val)).sum : Nat)
      ∧ f'.data = f.data
      ∧ (f'.pos : Int) = f.pos + 32 + 32 * t.ArrayDescriptors.length + 1
          + t.Header.NumberOfRecords * (1 + t.recordBytesCount) := by
  obtain ⟨f1, f2, hh, ha, hc, hn, hr⟩ := ReadDBFile_ok h
  obtain ⟨hd1, hp1, -, -⟩ := ReadHeaderBytes_ok hh
  obtain ⟨hd2, hp2⟩ := ReadArrayDescriptorsBytes_ok ha
  obtain ⟨-, hd3, hp3, -⟩ := readRecordsLoop_ok _ _ _ _ _ _ _ hr
  have hk : (t.ArrayDescriptors.length : Int) ≤ 1023 := by
    rw [hc]
    exact expectedDescriptorCount_le _
  have hsum : t.recordBytesCount
      = ((t.ArrayDescriptors.map (fun ad => ad.FieldLength.val)).sum : Nat) := by
    unfold DBFFile.recordBytesCount
    rw [foldl_fieldLength _ 0 (by omega) (by omega)]
    simp
  refine ⟨hsum, hd3.trans (hd2.trans hd1), ?_⟩
  rw [hsum, hp3, hp2, hp1]
  have hN : ((t.Header.NumberOfRecords.toNat : Nat) : Int) = t.Header.NumberOfRecords :=
    Int.toNat_of_nonneg hn
  push_cast
  rw [hN]

/-- C10 (witness): the file `fileStride`: one record of `1 + 10` bytes. -/
theorem ReadDBFile_stride_witness :
    ReadDBFile sampleExtern fileStride = .ok (tableStride, ⟨fileStride.data, 76⟩)
      ∧ tableStride.recordBytesCount = 10 ∧ (76 : Int) = 0 + 32 + 32 * 1 + 1 + 1 * (1 + 10) :=
  ⟨by decide,
    (ReadDBFile_stride sampleExtern fileStride ⟨fileStride.data, 76⟩ tableStride
      (by decide)).1,
    by decide⟩

/-! ## The CSV emitter -/

theorem intercalate_cons (sep x : GoString) (xs : List GoString) :
    List.intercalate sep (x :: xs) = x ++ (xs.map (fun y => sep ++ y)).flatten := by
  unfold List.intercalate
  induction xs generalizing x with
  | nil => simp
  | cons y ys ih =>
    rw [List.intersperse_cons_cons, List.flatten_cons, List.flatten_cons, ih y]
    simp

theorem writeFieldNames_succ (i : Nat) (ads : List ArrayDescriptor) (sb : GoString) :
    writeFieldNames (i + 1) ads sb
      = sb ++ (ads.map (fun ad => [44] ++ ad.FieldName)).flatten := by
  have hc : ascii "," = [44] := by decide
  induction ads generalizing i sb with
  | nil => simp [writeFieldNames]
  | cons ad rest ih =>
    rw [writeFieldNames, ih]
    simp [hc]

theorem writeFieldNames_zero (ads : List ArrayDescriptor) (sb : GoString) :
    writeFieldNames 0 ads sb
      = sb ++ List.intercalate [44] (ads.map (fun ad => ad.FieldName)) := by
  cases ads with
  | nil => simp [writeFieldNames, List.intercalate]
  | cons ad rest =>
    rw [writeFieldNames, writeFieldNames_succ, List.map_cons, intercalate_cons]
    simp [List.map_map, Function.comp_def]

theorem writeRecordFields_succ (E : Extern) (record : GoMap) (i : Nat)
    (ads : List ArrayDescriptor) (sb : GoString)
    (h : ∀ ad ∈ ads, GoMap.get record ad.FieldName ≠ none) :
    writeRecordFields E record (i + 1) ads sb
      = .ok (sb ++ (ads.map (fun ad => [44] ++ csvCell E record ad)).flatten) := by
  have hc : ascii "," = [44] := by decide
  induction ads generalizing i sb with
  | nil => simp [writeRecordFields]
  | cons ad rest ih =>
    have hne := h ad (List.mem_cons_self _ _)
    unfold writeRecordFields
    cases hg : GoMap.get record ad.FieldName with
    | none => exact absurd hg hne
    | some value =>
      simp only
      rw [ih _ _ (fun a ha => h a (List.mem_cons_of_mem _ ha))]
      simp [hc, csvCell, hg]

theorem writeRecordFields_zero (E : Extern) (record : GoMap)
    (ads : List ArrayDescriptor) (sb : GoString)
    (h : ∀ ad ∈ ads, GoMap.get record ad.FieldName ≠ none) :
    writeRecordFields E record 0 ads sb
      = .ok (sb ++ List.intercalate [44] (ads.map (csvCell E record))) := by
  cases ads with
  | nil => simp [writeRecordFields, List.intercalate]
  | cons ad rest =>
    have hne := h ad (List.mem_cons_self _ _)
    unfold writeRecordFields
    cases hg : GoMap.get record ad.FieldName with
    | none => exact absurd hg hne
    | some value =>
      simp only
      rw [writeRecordFields_succ E record 0 rest _
        (fun a ha => h a (List.mem_cons_of_mem _ ha)), List.map_cons, intercalate_cons]
      simp [csvCell, hg, List.map_map, Function.comp_def]

theorem writeRecords_eq (E : Extern) (ads : List ArrayDescriptor) (records : List GoMap)
    (sb : GoString)
    (h : ∀ record ∈ records, ∀ ad ∈ ads, GoMap.get record ad.FieldName ≠ none) :
    writeRecords E ads records sb
      = .ok (sb ++ (records.map (fun record =>
          [10] ++ List.intercalate [44] (ads.map (csvCell E record)))).flatten) := by
  have hc : ascii "\n" = [10] := by decide
  induction records generalizing sb with
  | nil => simp [writeRecords]
  | cons record rest ih =>
    unfold writeRecords
    rw [writeRecordFields_zero E record ads _ (h record (List.mem_cons_self _ _))]
    simp only
    rw [ih _ (fun r hr => h r (List.mem_cons_of_mem _ hr))]
    simp [hc]

/-- C6: for every table in which each record has an entry for every descriptor
name, `GetCSVData` returns no error and its output is the field names joined by a
comma, followed for each record, in order, by a line feed and the comma-join of
`ToString` of the record's values in descriptor order, with nothing else added; a
table without records yields the header row alone. -/
theorem GetCSVData_eq (E : Extern) (data : DBFFile)
    (h : ∀ record ∈ data.Records, ∀ ad ∈ data.ArrayDescriptors,
      GoMap.get record ad.FieldName ≠ none) :
    GetCSVData E data = .ok (csvText E data)
      ∧ (data.Records = [] →
          GetCSVData E data
            = .ok (List.intercalate [44] (data.ArrayDescriptors.map (fun ad => ad.FieldName)))) := by
  have h1 : GetCSVData E data = .ok (csvText E data) := by
    unfold GetCSVData csvText
    rw [writeRecords_eq E _ _ _ h, writeFieldNames_zero]
    simp
  refine ⟨h1, fun hnil => ?_⟩
  rw [h1, csvText, hnil]
  simp

/-- C6 (witness): the table `tableCsv`, whose text is `A,B`, `true,x,y` and
`false,MEMO FIELD (NOT SUPPORTED)` on three lines. -/
theorem GetCSVData_eq_witness :
    GetCSVData sampleExtern tableCsv
      = .ok (ascii "A,B\ntrue,x,y\nfalse,MEMO FIELD (NOT SUPPORTED)") :=
  (GetCSVData_eq sampleExtern tableCsv (by decide)).1.trans (by decide)

/-! ## The header -/

theorem getD_take_drop (l : List Byte) (p i : Nat) (h : i < 32) :
    ((l.drop p).take 32).getD i 0 = l.getD (p + i) 0 := by
  simp [List.getD_eq_getElem?_getD, List.getElem?_take, h]

theorem wrapInt32_bounds (x : Int) :
    -2147483648 ≤ wrapInt 32 x ∧ wrapInt 32 x < 2147483648 := by
  unfold wrapInt
  norm_num
  omega

theorem wrapInt32_id (x : Int) (h1 : -2147483648 ≤ x) (h2 : x < 2147483648) :
    wrapInt 32 x = x := by
  unfold wrapInt
  norm_num
  omega

/-- C11 (the claim fails): with the bytes `FF FF FF FF` at offsets 4 to 7, the
count that `ReadHeaderBytes` returns is `-1`, not `4294967295`. -/
theorem ReadHeaderBytes_count_counterexample :
    ∃ hdr f', ReadHeaderBytes fileNegativeCount = .ok (hdr, f')
      ∧ hdr.NumberOfRecords = -1
      ∧ ¬ (0 ≤ hdr.NumberOfRecords)
      ∧ hdr.NumberOfRecords ≠ 255 + 256 * 255 + 65536 * 255 + 16777216 * 255 :=
  ⟨sampleHeaderValue (-1) 32 1, ⟨fileNegativeCount.data, 32⟩, by decide, by decide, by decide,
    by decide⟩

/-- C11 (amended): for every header that `ReadHeaderBytes` reads, with bytes `b4` to
`b7` at offsets 4 to 7, `NumberOfRecords` is the signed 32-bit little-endian value of
those bytes: it is `b4 + 256*b5 + 65536*b6 + 16777216*b7` when `b7 < 0x80`, that value
minus `2^32` when `b7 >= 0x80`, and so lies between `-2^31` and `2^31 - 1`. -/
theorem ReadHeaderBytes_count (f f' : File) (hdr : Header)
    (h : ReadHeaderBytes f = .ok (hdr, f')) :
    (hdr.NumberOfRecords
        = if (f.data.getD (f.pos + 7) 0).val < 128 then
            ((f.data.getD (f.pos + 4) 0).val + 256 * (f.data.getD (f.pos + 5) 0).val
              + 65536 * (f.data.getD (f.pos + 6) 0).val
              + 16777216 * (f.data.getD (f.pos + 7) 0).val : Int)
          else
            ((f.data.getD (f.pos + 4) 0).val + 256 * (f.data.getD (f.pos + 5) 0).val
              + 65536 * (f.data.getD (f.pos + 6) 0).val
              + 16777216 * (f.data.getD (f.pos + 7) 0).val : Int) - 4294967296)
      ∧ -2147483648 ≤ hdr.NumberOfRecords ∧ hdr.NumberOfRecords < 2147483648 := by
  obtain ⟨-, -, -, hdec⟩ := ReadHeaderBytes_ok h
  subst hdec
  simp only [decodeHeader, byteVal]
  rw [getD_take_drop _ _ 4 (by omega), getD_take_drop _ _ 5 (by omega),
    getD_take_drop _ _ 6 (by omega), getD_take_drop _ _ 7 (by omega)]
  have h4 := (f.data.getD (f.pos + 4) 0).isLt
  have h5 := (f.data.getD (f.pos + 5) 0).isLt
  have h6 := (f.data.getD (f.pos + 6) 0).isLt
  have h7 := (f.data.getD (f.pos + 7) 0).isLt
  refine ⟨?_, (wrapInt32_bounds _).1, (wrapInt32_bounds _).2⟩
  unfold wrapInt
  norm_num
  split_ifs with hlt <;> omega

/-- C11 (witness): the header of `fileAlice`, whose count bytes are `01 00 00 00`. -/
theorem ReadHeaderBytes_count_witness :
    ReadHeaderBytes fileAlice = .ok (sampleHeaderValue 1 64 11, ⟨fileAlice.data, 32⟩)
      ∧ -2147483648 ≤ (sampleHeaderValue 1 64 11).NumberOfRecords
      ∧ (sampleHeaderValue 1 64 11).NumberOfRecords < 2147483648 :=
  ⟨by decide,
    (ReadHeaderBytes_count fileAlice ⟨fileAlice.data, 32⟩ (sampleHeaderValue 1 64 11)
      (by decide)).2⟩

/-- C12: for every header that `ReadHeaderBytes` reads, with bytes `YY`, `MM`, `DD` at
offsets 1, 2, 3, `LastUpdateDate` is exactly `10000*YY + 100*MM + DD`: the `int32`
arithmetic never wraps, the value staying between 0 and 2575755. -/
theorem ReadHeaderBytes_date (f f' : File) (hdr : Header)
    (h : ReadHeaderBytes f = .ok (hdr, f')) :
    hdr.LastUpdateDate
        = 10000 * ((f.data.getD (f.pos + 1) 0).val : Int)
          + 100 * ((f.data.getD (f.pos + 2) 0).val : Int)
          + ((f.data.getD (f.pos + 3) 0).val : Int)
      ∧ 0 ≤ hdr.LastUpdateDate ∧ hdr.LastUpdateDate ≤ 2575755 := by
  obtain ⟨-, -, -, hdec⟩ := ReadHeaderBytes_ok h
  subst hdec
  simp only [decodeHeader, byteVal]
  rw [getD_take_drop _ _ 1 (by omega), getD_take_drop _ _ 2 (by omega),
    getD_take_drop _ _ 3 (by omega)]
  have h1 := (f.data.getD (f.pos + 1) 0).isLt
  have h2 := (f.data.getD (f.pos + 2) 0).isLt
  have h3 := (f.data.getD (f.pos + 3) 0).isLt
  rw [wrapInt32_id (10000 * _) (by omega) (by omega),
    wrapInt32_id (100 * _) (by omega) (by omega),
    wrapInt32_id (10000 * _ + 100 * _) (by omega) (by omega),
    wrapInt32_id _ (by omega) (by omega)]
  refine ⟨rfl, by omega, by omega⟩

/-- C12 (witness): the header of `fileAlice`, dated `99`, `1`, `2`. -/
theorem ReadHeaderBytes_date_witness :
    ReadHeaderBytes fileAlice = .ok (sampleHeaderValue 1 64 11, ⟨fileAlice.data, 32⟩)
      ∧ (sampleHeaderValue 1 64 11).LastUpdateDate = 10000 * 99 + 100 * 1 + 2 :=
  ⟨by decide,
    (ReadHeaderBytes_date fileAlice ⟨fileAlice.data, 32⟩ (sampleHeaderValue 1 64 11)
      (by decide)).1.trans (by decide)⟩

/-- C13: `ReadHeaderBytes` succeeds exactly when at least 32 bytes remain in the
source: with fewer it returns an error and no header; with 32 or more it succeeds
whatever the bytes are, and the cursor advances by exactly 32. -/
theorem ReadHeaderBytes_iff (f : File) :
    (f.data.length < f.pos + 32 → ∃ e, ReadHeaderBytes f = .error e)
      ∧ (f.pos + 32 ≤ f.data.length →
          ReadHeaderBytes f
            = .ok (decodeHeader ((f.data.drop f.pos).take 32), ⟨f.data, f.pos + 32⟩))
      ∧ ((∃ hdr f', ReadHeaderBytes f = .ok (hdr, f')) ↔ f.pos + 32 ≤ f.data.length)
      ∧ (∀ hdr f', ReadHeaderBytes f = .ok (hdr, f') →
          f'.data = f.data ∧ f'.pos = f.pos + 32) := by
  have hok : f.pos + 32 ≤ f.data.length →
      ReadHeaderBytes f
        = .ok (decodeHeader ((f.data.drop f.pos).take 32), ⟨f.data, f.pos + 32⟩) := by
    intro hlen
    unfold ReadHeaderBytes binaryRead
    rw [if_neg (by omega), if_neg (by omega), if_neg (by omega)]
  refine ⟨?_, hok, ⟨?_, fun hlen => ⟨_, _, hok hlen⟩⟩, ?_⟩
  · intro hlt
    unfold ReadHeaderBytes binaryRead
    rw [if_neg (by omega)]
    split_ifs
    · exact ⟨_, rfl⟩
    · exact ⟨_, rfl⟩
  · rintro ⟨hdr, f', h⟩
    exact (ReadHeaderBytes_ok h).2.2.1
  · intro hdr f' h
    exact ⟨(ReadHeaderBytes_ok h).1, (ReadHeaderBytes_ok h).2.1⟩

/-- C13 (witness): a source of 31 bytes is refused, the 76 bytes of `fileAlice` are
read. -/
theorem ReadHeaderBytes_iff_witness :
    (∃ e, ReadHeaderBytes fileShortHeader = .error e)
      ∧ ReadHeaderBytes fileAlice
          = .ok (decodeHeader ((fileAlice.data.drop fileAlice.pos).take 32),
              ⟨fileAlice.data, fileAlice.pos + 32⟩) :=
  ⟨(ReadHeaderBytes_iff fileShortHeader).1 (by decide),
    (ReadHeaderBytes_iff fileAlice).2.1 (by decide)⟩

/-! ## Trimming -/

theorem inCutset_iff (c : Byte) : inCutset c = true ↔ c = 0 ∨ c = 32 := by
  simp [inCutset]

theorem dropWhile_of_head (p : Byte → Bool) (l : List Byte)
    (h : ∀ c, l.head? = some c → p c = false) : l.dropWhile p = l := by
  cases l with
  | nil => rfl
  | cons a t =>
    have := h a rfl
    simp [List.dropWhile_cons, this]

theorem head_dropWhile (p : Byte → Bool) (l : List Byte) (c : Byte)
    (h : (l.dropWhile p).head? = some c) : p c = false := by
  have := List.head?_dropWhile_not p l
  rw [h] at this
  exact this

theorem getLast_dropWhile (p : Byte → Bool) (l : List Byte) (c : Byte)
    (h : (l.dropWhile p).getLast? = some c) : l.getLast? = some c := by
  have hne : l.dropWhile p ≠ [] := by
    intro hnil
    rw [hnil] at h
    simp at h
  have e := List.takeWhile_append_dropWhile p l
  rw [← e, List.getLast?_append_of_ne_nil _ hne]
  exact h

theorem Trim_head (s : GoString) (c : Byte) (h : (Trim s).head? = some c) :
    c ≠ 0 ∧ c ≠ 32 := by
  have := head_dropWhile inCutset _ c h
  have hc := inCutset_iff c
  constructor
  · intro h0
    have := hc.2 (Or.inl h0)
    simp_all
  · intro h0
    have := hc.2 (Or.inr h0)
    simp_all

theorem Trim_getLast (s : GoString) (c : Byte) (h : (Trim s).getLast? = some c) :
    c ≠ 0 ∧ c ≠ 32 := by
  have h1 : (trimRightASCII s).getLast? = some c := getLast_dropWhile inCutset _ c h
  unfold trimRightASCII at h1
  rw [List.getLast?_reverse] at h1
  have := head_dropWhile inCutset _ c h1
  have hc := inCutset_iff c
  constructor
  · intro h0
    have := hc.2 (Or.inl h0)
    simp_all
  · intro h0
    have := hc.2 (Or.inr h0)
    simp_all

theorem Trim_decompose (s : GoString) :
    ∃ l r : GoString, s = l ++ Trim s ++ r
      ∧ (∀ c ∈ l, c = 0 ∨ c = 32) ∧ (∀ c ∈ r, c = 0 ∨ c = 32) := by
  refine ⟨(trimRightASCII s).takeWhile inCutset,
    (s.reverse.takeWhile inCutset).reverse, ?_, ?_, ?_⟩
  · unfold Trim trimLeftASCII
    rw [List.takeWhile_append_dropWhile]
    unfold trimRightASCII
    rw [← List.reverse_append, List.takeWhile_append_dropWhile, List.reverse_reverse]
  · intro c hc
    exact (inCutset_iff c).1 (List.mem_takeWhile_imp hc)
  · intro c hc
    exact (inCutset_iff c).1 (List.mem_takeWhile_imp (List.mem_reverse.1 hc))

theorem Trim_idempotent (s : GoString) : Trim (Trim s) = Trim s := by
  have hr : trimRightASCII (Trim s) = Trim s := by
    unfold trimRightASCII
    rw [dropWhile_of_head, List.reverse_reverse]
    intro c hc
    rw [List.head?_reverse] at hc
    have := Trim_getLast s c hc
    cases hcut : inCutset c with
    | false => rfl
    | true =>
      rcases (inCutset_iff c).1 hcut with h0 | h0
      · exact absurd h0 this.1
      · exact absurd h0 this.2
  show trimLeftASCII (trimRightASCII (Trim s)) = Trim s
  rw [hr]
  unfold trimLeftASCII
  apply dropWhile_of_head
  intro c hc
  have := Trim_head s c hc
  cases hcut : inCutset c with
  | false => rfl
  | true =>
    rcases (inCutset_iff c).1 hcut with h0 | h0
    · exact absurd h0 this.1
    · exact absurd h0 this.2

/-- C17: whenever `Character.ReadFromDBF` succeeds, whatever the transcoder
produced, its result neither starts nor ends with a NUL or a space, so trimming it
again returns it unchanged; the result is the transcoded string without its leading
and trailing runs of NUL and space, so what lies between them is kept. -/
theorem Character_trimmed (E : Extern) (b : List Byte) (v : Primitive)
    (h : Character.ReadFromDBF E b = .ok v) :
    ∃ s decoded l r, v = .Character s ∧ E.DecodeBytes b = some decoded
      ∧ decoded = l ++ s ++ r
      ∧ (∀ c ∈ l, c = 0 ∨ c = 32) ∧ (∀ c ∈ r, c = 0 ∨ c = 32)
      ∧ (∀ c, s.head? = some c → c ≠ 0 ∧ c ≠ 32)
      ∧ (∀ c, s.getLast? = some c → c ≠ 0 ∧ c ≠ 32)
      ∧ Trim s = s := by
  unfold Character.ReadFromDBF at h
  split at h
  · simp at h
  · rename_i decoded hd
    simp only [Result.ok.injEq] at h
    obtain ⟨l, r, hdec, hl, hr⟩ := Trim_decompose decoded
    exact ⟨Trim decoded, decoded, l, r, h.symm, hd, hdec, hl, hr, Trim_head decoded,
      Trim_getLast decoded, Trim_idempotent decoded⟩

/-- C17 (witness): the bytes of ` A`, space, NUL, `B`, NUL, space, with the identity
transcoder: the result keeps the inner space and NUL. -/
theorem Character_trimmed_witness :
    ∃ s decoded l r, Primitive.Character [65, 32, 0, 66] = .Character s
      ∧ sampleExtern.DecodeBytes [32, 65, 32, 0, 66, 0, 32] = some decoded
      ∧ decoded = l ++ s ++ r
      ∧ (∀ c ∈ l, c = 0 ∨ c = 32) ∧ (∀ c ∈ r, c = 0 ∨ c = 32)
      ∧ (∀ c, s.head? = some c → c ≠ 0 ∧ c ≠ 32)
      ∧ (∀ c, s.getLast? = some c → c ≠ 0 ∧ c ≠ 32)
      ∧ Trim s = s :=
  Character_trimmed sampleExtern [32, 65, 32, 0, 66, 0, 32] (.Character [65, 32, 0, 66])
    (by decide)

/-! ## Numeric and Decimal -/

theorem TrimSpace_id (E : Extern) (s : GoString)
    (hl : ∀ c, s.head? = some c → asciiSpace c = false)
    (hr : ∀ c, s.getLast? = some c → asciiSpace c = false)
    (hu : ∀ c, s.head? = some c → 128 ≤ c.val → E.TrimFuncIsSpace s = s)
    (hur : ∀ c, s.getLast? = some c → 128 ≤ c.val → E.TrimRightFuncIsSpace s = s) :
    TrimSpace E s = s := by
  cases s with
  | nil => rfl
  | cons c rest =>
    unfold TrimSpace
    by_cases h128 : 128 ≤ c.val
    · rw [if_pos h128]
      exact hu c rfl h128
    · rw [if_neg h128]
      have hsp := hl c rfl
      simp only [hsp, Bool.false_eq_true, if_false]
      cases hrev : (c :: rest).reverse with
      | nil => simp at hrev
      | cons c' rest' =>
        have hlast : (c :: rest).getLast? = some c' := by
          rw [← List.head?_reverse, hrev]
          rfl
        have hback : (c' :: rest').reverse = c :: rest := by
          rw [← hrev, List.reverse_reverse]
        unfold trimSpaceStop
        by_cases h128' : 128 ≤ c'.val
        · rw [if_pos h128', hback]
          exact hur c' hlast h128'
        · rw [if_neg h128']
          have hsp' := hr c' hlast
          simp only [hsp', Bool.false_eq_true, if_false]
          exact hback

/-- C16: for every byte slice whose NUL-truncated string neither starts nor ends
with whitespace (no ASCII whitespace byte at either end, and, where an end byte is
not ASCII, the Unicode-aware trimming of the library leaves the string unchanged),
the Numeric and the Decimal decoders agree: both fail, or both succeed with the same
decimal value and the same `ToString`. -/
theorem Numeric_Decimal_agree (E : Extern) (b : List Byte)
    (hl : ∀ c, (readString b).head? = some c → asciiSpace c = false)
    (hr : ∀ c, (readString b).getLast? = some c → asciiSpace c = false)
    (hu : ∀ c, (readString b).head? = some c → 128 ≤ c.val →
      E.TrimFuncIsSpace (readString b) = readString b)
    (hur : ∀ c, (readString b).getLast? = some c → 128 ≤ c.val →
      E.TrimRightFuncIsSpace (readString b) = readString b) :
    ((∃ e, Numeric.ReadFromDBF E b = .error e) ∧ (∃ e, Decimal.ReadFromDBF E b = .error e))
      ∨ (∃ d, Numeric.ReadFromDBF E b = .ok (.Numeric d)
          ∧ Decimal.ReadFromDBF E b = .ok (.Decimal d)
          ∧ (Primitive.Numeric d).ToString E = (Primitive.Decimal d).ToString E) := by
  unfold Numeric.ReadFromDBF Decimal.ReadFromDBF
  rw [TrimSpace_id E _ hl hr hu hur]
  cases hp : E.NewFromString (readString b) with
  | none => exact Or.inl ⟨⟨_, rfl⟩, ⟨_, rfl⟩⟩
  | some d => exact Or.inr ⟨d, rfl, rfl, rfl⟩

/-- C16 (witness): the field bytes `42` followed by two NUL bytes. -/
theorem Numeric_Decimal_agree_witness :
    ((∃ e, Numeric.ReadFromDBF sampleExtern [52, 50, 0, 0] = .error e)
        ∧ (∃ e, Decimal.ReadFromDBF sampleExtern [52, 50, 0, 0] = .error e))
      ∨ (∃ d, Numeric.ReadFromDBF sampleExtern [52, 50, 0, 0] = .ok (.Numeric d)
          ∧ Decimal.ReadFromDBF sampleExtern [52, 50, 0, 0] = .ok (.Decimal d)
          ∧ (Primitive.Numeric d).ToString sampleExtern
              = (Primitive.Decimal d).ToString sampleExtern) :=
  have e1 : (readString [52, 50, 0, 0]).head? = some 52 := by decide
  have e2 : (readString [52, 50, 0, 0]).getLast? = some 50 := by decide
  Numeric_Decimal_agree sampleExtern [52, 50, 0, 0]
    (fun c h => by rw [e1] at h; cases h; decide)
    (fun c h => by rw [e2] at h; cases h; decide)
    (fun c h h128 => by rw [e1] at h; cases h; exact absurd h128 (by decide))
    (fun c h h128 => by rw [e2] at h; cases h; exact absurd h128 (by decide))

/-! ## The descriptor sequence -/

theorem headD_drop (l : List Byte) (p : Nat) : (l.drop p).headD 0 = l.getD p 0 := by
  simp [List.headD_eq_head?_getD, List.head?_drop, List.getD_eq_getElem?_getD]

theorem binaryRead_eq (n : Nat) (f : File) (h : f.pos + n ≤ f.data.length) :
    binaryRead n f = .ok ((f.data.drop f.pos).take n, ⟨f.data, f.pos + n⟩) := by
  unfold binaryRead
  by_cases h0 : n = 0
  · subst h0
    simp
  · rw [if_neg h0, if_neg (by omega), if_neg (by omega)]

theorem PeakNextByte_eq (f : File) (h : f.pos < f.data.length) :
    PeakNextByte f = .ok ((f.pos, (f.data.drop f.pos).headD 0), ⟨f.data, f.pos + 1⟩) := by
  unfold PeakNextByte
  rw [Seek_zero]
  simp only
  rw [binaryRead_eq 1 f (by omega)]
  simp only
  cases hd : f.data.drop f.pos with
  | nil =>
    have := congrArg List.length hd
    simp at this
    omega
  | cons a t => simp

theorem ReadArrayDescriptorsLoop_blocks (blocks : List (List Byte)) (fuel : Nat) (f : File)
    (acc : List ArrayDescriptor) (tail : List Byte)
    (hdata : f.data.drop f.pos = blocks.flatten ++ 13 :: tail)
    (hb : ∀ b ∈ blocks, b.length = 32 ∧ b.headD 0 ≠ 13)
    (hfuel : blocks.length < fuel) :
    ReadArrayDescriptorsLoop fuel f acc
      = .ok (acc ++ blocks.map decodeArrayDescriptor,
          ⟨f.data, f.pos + 32 * blocks.length + 1⟩) := by
  induction blocks generalizing fuel f acc with
  | nil =>
    obtain ⟨n, rfl⟩ : ∃ n, fuel = n + 1 := ⟨fuel - 1, by omega⟩
    have hlen : f.pos < f.data.length := by
      have := congrArg List.length hdata
      simp only [List.length_drop, List.length_append, List.length_cons] at this
      omega
    unfold ReadArrayDescriptorsLoop
    rw [PeakNextByte_eq f hlen]
    simp only [hdata, List.flatten_nil, List.nil_append, List.headD_cons,
      ArrayDescriptorsTerminator]
    simp
  | cons b bs ih =>
    obtain ⟨n, rfl⟩ : ∃ n, fuel = n + 1 := ⟨fuel - 1, by omega⟩
    obtain ⟨hb32, hbhead⟩ := hb b (List.mem_cons_self _ _)
    have hdata' : f.data.drop f.pos = b ++ (bs.flatten ++ 13 :: tail) := by
      rw [hdata, List.flatten_cons, List.append_assoc]
    have hlen : f.pos + 32 < f.data.length := by
      have := congrArg List.length hdata'
      simp only [List.length_drop, List.length_append, List.length_cons] at this
      omega
    have hpk := PeakNextByte_eq f (by omega)
    obtain ⟨hseek, -⟩ := descriptor_step hpk
    have hhead : (f.data.drop f.pos).headD 0 = b.headD 0 := by
      rw [hdata']
      cases b with
      | nil => simp at hb32
      | cons a t => simp
    have htake : (f.data.drop f.pos).take 32 = b := by
      rw [hdata', ← hb32]
      simp
    have hdrop : f.data.drop (f.pos + 32) = bs.flatten ++ 13 :: tail := by
      rw [← List.drop_drop, hdata', ← hb32]
      simp
    unfold ReadArrayDescriptorsLoop
    rw [hpk]
    simp only
    rw [if_neg (by rw [hhead]; exact hbhead), hseek]
    simp only
    rw [binaryRead_eq 32 f (by omega)]
    simp only
    rw [htake, ih n ⟨f.data, f.pos + 32⟩ _ hdrop
      (fun x hx => hb x (List.mem_cons_of_mem _ hx))
      (by simp only [List.length_cons] at hfuel; omega)]
    simp only [List.append_assoc, List.singleton_append, List.map_cons, List.length_cons]
    congr 3
    omega

/-- C14: for a source whose bytes from the cursor are `k` blocks of 32 bytes, none
starting with `0x0D`, followed by a byte `0x0D`, `ReadArrayDescriptorsBytes` succeeds,
returns the `k` descriptors of the blocks in file order and leaves the cursor one
byte past the terminator; a `0x0D` elsewhere in a block does not end the sequence,
as only the first byte of a block is constrained. Each descriptor has the type,
length, decimal count, example at bytes 11, 16, 17, 20, the work area identifier
little-endian at bytes 18 and 19, the flag `byte 31 != 0`, and for name the bytes
0 to 10 without their leading and trailing NUL and space bytes. -/
theorem ReadArrayDescriptorsBytes_blocks (f : File) (blocks : List (List Byte))
    (tail : List Byte)
    (hdata : f.data.drop f.pos = blocks.flatten ++ 13 :: tail)
    (hb : ∀ b ∈ blocks, b.length = 32 ∧ b.headD 0 ≠ 13) :
    ReadArrayDescriptorsBytes f
        = .ok (blocks.map decodeArrayDescriptor, ⟨f.data, f.pos + 32 * blocks.length + 1⟩)
      ∧ ∀ b ∈ blocks,
          (decodeArrayDescriptor b).FieldType = b.getD 11 0
          ∧ (decodeArrayDescriptor b).FieldLength = b.getD 16 0
          ∧ (decodeArrayDescriptor b).FieldDecimalCount = b.getD 17 0
          ∧ (decodeArrayDescriptor b).WorkAreaID = (b.getD 18 0).val + 256 * (b.getD 19 0).val
          ∧ (decodeArrayDescriptor b).Example = b.getD 20 0
          ∧ ((decodeArrayDescriptor b).ProductionMDXFieldFlag = true ↔ b.getD 31 0 ≠ 0)
          ∧ (∃ l r : GoString, b.take 11 = l ++ (decodeArrayDescriptor b).FieldName ++ r
              ∧ (∀ c ∈ l, c = 0 ∨ c = 32) ∧ (∀ c ∈ r, c = 0 ∨ c = 32))
          ∧ (∀ c, (decodeArrayDescriptor b).FieldName.head? = some c → c ≠ 0 ∧ c ≠ 32)
          ∧ (∀ c, (decodeArrayDescriptor b).FieldName.getLast? = some c → c ≠ 0 ∧ c ≠ 32) := by
  constructor
  · have hlen : blocks.length < f.data.length + 1 := by
      have h1 := congrArg List.length hdata
      have h2 : 32 * blocks.length ≤ blocks.flatten.length := by
        clear hdata h1
        induction blocks with
        | nil => simp
        | cons b bs ih =>
          have := (hb b (List.mem_cons_self _ _)).1
          have := ih (fun x hx => hb x (List.mem_cons_of_mem _ hx))
          simp only [List.length_cons, List.flatten_cons, List.length_append]
          omega
      simp only [List.length_drop, List.length_append, List.length_cons] at h1
      omega
    have := ReadArrayDescriptorsLoop_blocks blocks (f.data.length + 1) f [] tail hdata hb hlen
    simpa [ReadArrayDescriptorsBytes] using this
  · intro b _
    refine ⟨rfl, rfl, rfl, rfl, rfl, ?_, Trim_decompose _, Trim_head _, Trim_getLast _⟩
    simp [decodeArrayDescriptor]

/-- C14 (witness): two blocks read from offset 3, the first with `0x0D` inside its
name. -/
theorem ReadArrayDescriptorsBytes_blocks_witness :
    ReadArrayDescriptorsBytes fileTwoBlocks
      = .ok ([decodeArrayDescriptor (sampleDescriptor "A\rB" 'C' 10),
              decodeArrayDescriptor (sampleDescriptor " X" 'N' 2)], ⟨fileTwoBlocks.data, 68⟩) :=
  (ReadArrayDescriptorsBytes_blocks fileTwoBlocks
    [sampleDescriptor "A\rB" 'C' 10, sampleDescriptor " X" 'N' 2] [7] (by decide)
    (by decide)).1

/-! ## The end of the descriptor sequence -/

theorem ReadArrayDescriptorsLoop_terminator (fuel : Nat) (f f' : File)
    (acc ads : List ArrayDescriptor)
    (h : ReadArrayDescriptorsLoop fuel f acc = .ok (ads, f')) :
    ∃ k, ads.length = acc.length + k ∧ f'.pos = f.pos + 32 * k + 1
      ∧ f.pos + 32 * k < f.data.length ∧ f.data.getD (f.pos + 32 * k) 0 = 13
      ∧ ∀ j, j < k → f.data.getD (f.pos + 32 * j) 0 ≠ 13 := by
  induction fuel generalizing f acc with
  | zero => simp [ReadArrayDescriptorsLoop] at h
  | succ n ih =>
    unfold ReadArrayDescriptorsLoop at h
    split at h
    · simp at h
    · simp at h
    · rename_i off c f1 hpk
      obtain ⟨hseek, hne⟩ := descriptor_step hpk
      obtain ⟨-, hd, hp, hlt, hc⟩ := PeakNextByte_ok hpk
      rw [headD_drop] at hc
      split_ifs at h with hterm
      · simp only [Result.ok.injEq, Prod.mk.injEq] at h
        obtain ⟨rfl, rfl⟩ := h
        refine ⟨0, by simp, by simp [hp], by simpa using hlt, ?_, by omega⟩
        rw [Nat.mul_zero, Nat.add_zero, ← hc, hterm]
        rfl
      · rw [hseek] at h
        simp only at h
        split at h
        · rename_i e hb
          split_ifs at h with he
          · subst he
            exact absurd hb hne
        · simp at h
        · rename_i bs f3 hb
          obtain ⟨hd3, hp3, -, -⟩ := binaryRead_ok hb
          obtain ⟨k, hlen, hpos, hlt', hget, hbefore⟩ := ih f3 _ h
          rw [hd3, hp3] at hlt' hget hbefore
          refine ⟨k + 1, ?_, ?_, ?_, ?_, ?_⟩
          · rw [hlen]
            simp only [List.length_append, List.length_singleton]
            omega
          · rw [hpos, hp3]
            omega
          · have e : f.pos + 32 * (k + 1) = f.pos + 32 + 32 * k := by omega
            rw [e]
            exact hlt'
          · have e : f.pos + 32 * (k + 1) = f.pos + 32 + 32 * k := by omega
            rw [e]
            exact hget
          · intro j hj
            cases j with
            | zero =>
              rw [Nat.mul_zero, Nat.add_zero, ← hc]
              exact hterm
            | succ j' =>
              have e : f.pos + 32 * (j' + 1) = f.pos + 32 + 32 * j' := by omega
              rw [e]
              exact hbefore j' (by omega)

theorem binaryRead_unexpected {n : Nat} {f : File}
    (h : binaryRead n f = .error .ErrUnexpectedEOF) :
    f.pos < f.data.length ∧ f.data.length < f.pos + n := by
  unfold binaryRead at h
  split_ifs at h with h0 h1 h2
  · simp at h
  · exact ⟨by omega, h2⟩

theorem ReadArrayDescriptorsLoop_error (fuel : Nat) (f : File) (acc : List ArrayDescriptor)
    (e : Err) (h : ReadArrayDescriptorsLoop fuel f acc = .error e) :
    e = .fuelExhausted
      ∨ (∃ k, e = .wrap .peekingNextByte (.wrap (.readingNextByte (f.pos + 32 * k)) .EOF)
          ∧ f.data.length ≤ f.pos + 32 * k)
      ∨ (∃ k, e = .wrap (.readingArrayDescriptor (f.pos + 32 * k)) .ErrUnexpectedEOF
          ∧ f.pos + 32 * k < f.data.length ∧ f.data.length < f.pos + 32 * k + 32) := by
  induction fuel generalizing f acc with
  | zero =>
    simp only [ReadArrayDescriptorsLoop, Result.error.injEq] at h
    exact Or.inl h.symm
  | succ n ih =>
    unfold ReadArrayDescriptorsLoop at h
    split at h
    · rename_i e' hpk
      obtain ⟨rfl, hlen⟩ := PeakNextByte_error hpk
      simp only [Result.error.injEq] at h
      exact Or.inr (Or.inl ⟨0, by rw [← h]; rfl, by simpa using hlen⟩)
    · simp at h
    · rename_i off c f1 hpk
      obtain ⟨hseek, hne⟩ := descriptor_step hpk
      obtain ⟨hoff, hd, hp, hlt, -⟩ := PeakNextByte_ok hpk
      split_ifs at h with hterm
      rw [hseek] at h
      simp only at h
      split at h
      · rename_i e' hb
        split_ifs at h with he
        simp only [Result.error.injEq] at h
        rcases binaryRead_error hb with ⟨rfl, -⟩ | ⟨rfl, -⟩
        · exact absurd rfl he
        · have := (binaryRead_unexpected hb).2
          exact Or.inr (Or.inr ⟨0, by rw [← h, hoff]; rfl, by simpa using hlt, by omega⟩)
      · simp at h
      · rename_i bs f3 hb
        obtain ⟨hd3, hp3, -, -⟩ := binaryRead_ok hb
        rcases ih f3 _ h with h1 | ⟨k, h1, h2⟩ | ⟨k, h1, h2, h3⟩
        · exact Or.inl h1
        · refine Or.inr (Or.inl ⟨k + 1, ?_, ?_⟩)
          · rw [h1, hp3]
            congr 3
            omega
          · rw [hd3, hp3] at h2
            omega
        · refine Or.inr (Or.inr ⟨k + 1, ?_, ?_, ?_⟩)
          · rw [h1, hp3]
            congr 2
            omega
          · rw [hd3, hp3] at h2
            omega
          · rw [hd3, hp3] at h3
            omega

/-- C18: `ReadArrayDescriptorsBytes` succeeds only by reading a `0x0D` byte at a
descriptor boundary, an offset `p + 32*k` from its start offset `p`, with `k` the
number of descriptors returned; on every source without such a byte it returns an
error and no descriptor list, the end-of-file error of the peek when the source ends
at a boundary and the unexpected-end-of-file error of the read when it ends inside
a descriptor; and in no iteration does the read that follows a successful peek
return `io.EOF`, so the break on `io.EOF` is never taken. -/
theorem ReadArrayDescriptorsBytes_terminator (f : File) :
    (∀ ads f', ReadArrayDescriptorsBytes f = .ok (ads, f') →
        f'.pos = f.pos + 32 * ads.length + 1
          ∧ f.pos + 32 * ads.length < f.data.length
          ∧ f.data.getD (f.pos + 32 * ads.length) 0 = 13)
      ∧ ((∀ k, f.pos + 32 * k < f.data.length → f.data.getD (f.pos + 32 * k) 0 ≠ 13) →
          ∃ k, (ReadArrayDescriptorsBytes f
                  = .error (.wrap .peekingNextByte
                      (.wrap (.readingNextByte (f.pos + 32 * k)) .EOF))
                ∧ f.data.length ≤ f.pos + 32 * k)
            ∨ (ReadArrayDescriptorsBytes f
                  = .error (.wrap (.readingArrayDescriptor (f.pos + 32 * k)) .ErrUnexpectedEOF)
                ∧ f.pos + 32 * k < f.data.length ∧ f.data.length < f.pos + 32 * k + 32))
      ∧ (∀ g g1 g2 off c n, PeakNextByte g = .ok ((off, c), g1) →
          Seek (-1) g1 = .ok (n, g2) → binaryRead 32 g2 ≠ .error .EOF) := by
  refine ⟨?_, ?_, ?_⟩
  · intro ads f' h
    obtain ⟨k, hlen, hpos, hlt, hget, -⟩ := ReadArrayDescriptorsLoop_terminator _ f f' [] ads h
    simp only [List.length_nil, Nat.zero_add] at hlen
    subst hlen
    exact ⟨hpos, hlt, hget⟩
  · intro hno
    cases hres : ReadArrayDescriptorsBytes f with
    | ok v =>
      obtain ⟨ads, f'⟩ := v
      obtain ⟨k, -, -, hlt, hget, -⟩ :=
        ReadArrayDescriptorsLoop_terminator _ f f' [] ads hres
      exact absurd hget (hno k hlt)
    | panic => exact absurd hres (ReadArrayDescriptorsBytes_fuel f).2
    | error e =>
      rcases ReadArrayDescriptorsLoop_error _ f [] e hres with h1 | ⟨k, h1, h2⟩ | ⟨k, h1, h2, h3⟩
      · subst h1
        exact absurd hres (ReadArrayDescriptorsBytes_fuel f).1
      · exact ⟨k, Or.inl ⟨by rw [h1], h2⟩⟩
      · exact ⟨k, Or.inr ⟨by rw [h1], h2, h3⟩⟩
  · intro g g1 g2 off c n hpk hseek
    obtain ⟨hs, hne⟩ := descriptor_step hpk
    rw [hs] at hseek
    simp only [Result.ok.injEq, Prod.mk.injEq] at hseek
    rw [← hseek.2]
    exact hne

/-- C18 (witness): a header and one descriptor without a terminator, read from
offset 32: the source ends at the boundary 64. -/
theorem ReadArrayDescriptorsBytes_terminator_witness :
    ∃ k, (ReadArrayDescriptorsBytes fileNoTerminator
            = .error (.wrap .peekingNextByte
                (.wrap (.readingNextByte (fileNoTerminator.pos + 32 * k)) .EOF))
          ∧ fileNoTerminator.data.length ≤ fileNoTerminator.pos + 32 * k)
      ∨ (ReadArrayDescriptorsBytes fileNoTerminator
            = .error (.wrap (.readingArrayDescriptor (fileNoTerminator.pos + 32 * k))
                .ErrUnexpectedEOF)
          ∧ fileNoTerminator.pos + 32 * k < fileNoTerminator.data.length
          ∧ fileNoTerminator.data.length < fileNoTerminator.pos + 32 * k + 32) :=
  (ReadArrayDescriptorsBytes_terminator fileNoTerminator).2.1 (fun k hk => by
    have hl : fileNoTerminator.data.length = 64 := by decide
    have hp : fileNoTerminator.pos = 32 := rfl
    have hk0 : k = 0 := by omega
    subst hk0
    decide)

/-! ## The record layout -/

theorem GoMap.get_set_self (m : GoMap) (k : GoString) (v : Primitive) :
    GoMap.get (GoMap.set m k v) k = some v := by
  induction m with
  | nil => simp [GoMap.set, GoMap.get]
  | cons p t ih =>
    obtain ⟨k0, v0⟩ := p
    by_cases h : k0 = k
    · simp [GoMap.set, GoMap.get, h]
    · simp [GoMap.set, GoMap.get, h, ih]

theorem GoMap.get_set_ne (m : GoMap) (k k' : GoString) (v : Primitive) (h : k' ≠ k) :
    GoMap.get (GoMap.set m k v) k' = GoMap.get m k' := by
  induction m with
  | nil =>
    have h' : ¬ k = k' := fun e => h e.symm
    simp [GoMap.set, GoMap.get, h']
  | cons p t ih =>
    obtain ⟨k0, v0⟩ := p
    by_cases h0 : k0 = k
    · subst h0
      have h' : ¬ k0 = k' := fun e => h e.symm
      simp [GoMap.set, GoMap.get, h']
    · by_cases h1 : k0 = k'
      · subst h1
        simp [GoMap.set, GoMap.get, h0]
      · simp [GoMap.set, GoMap.get, h0, h1, ih]

theorem readRecordFields_get_other (E : Extern) (i : Nat) (ads : List ArrayDescriptor)
    (f f' : File) (record record' : GoMap)
    (h : readRecordFields E i ads f record = .ok (record', f'))
    (k : GoString) (hk : k ∉ ads.map (fun ad => ad.FieldName)) :
    GoMap.get record' k = GoMap.get record k := by
  induction ads generalizing f record with
  | nil =>
    simp only [readRecordFields, Result.ok.injEq, Prod.mk.injEq] at h
    rw [h.1]
  | cons ad rest ih =>
    unfold readRecordFields at h
    split at h
    · simp at h
    · simp at h
    · split at h
      · simp at h
      · simp at h
      · simp only [List.map_cons, List.mem_cons, not_or] at hk
        rw [ih _ _ h hk.2, GoMap.get_set_ne _ _ _ _ hk.1]

theorem readRecordFields_value (E : Extern) (i : Nat) (ads : List ArrayDescriptor)
    (f f' : File) (record record' : GoMap)
    (h : readRecordFields E i ads f record = .ok (record', f'))
    (hnd : (ads.map (fun ad => ad.FieldName)).Nodup) :
    ∀ j ad, ads[j]? = some ad →
      ∃ v, GoMap.get record' ad.FieldName = some v
        ∧ ReadField E (byteVal ad.FieldType)
            ((f.data.drop
                (f.pos + ((ads.take j).map (fun a => a.FieldLength.val)).sum)).take
              ad.FieldLength.val) = .ok v := by
  induction ads generalizing f record with
  | nil =>
    intro j ad hj
    simp at hj
  | cons ad0 rest ih =>
    unfold readRecordFields at h
    split at h
    · simp at h
    · simp at h
    · rename_i b f1 hb
      obtain ⟨hd1, hp1, hbs, -⟩ := binaryRead_ok hb
      split at h
      · simp at h
      · simp at h
      · rename_i value hv
        simp only [List.map_cons, List.nodup_cons] at hnd
        intro j ad hj
        cases j with
        | zero =>
          simp only [List.getElem?_cons_zero, Option.some.injEq] at hj
          subst hj
          refine ⟨value, ?_, ?_⟩
          · rw [readRecordFields_get_other E i rest f1 f' _ record' h _ hnd.1,
              GoMap.get_set_self]
          · simp only [List.take_zero, List.map_nil, List.sum_nil, Nat.add_zero]
            rw [← hbs]
            exact hv
        | succ j' =>
          simp only [List.getElem?_cons_succ] at hj
          obtain ⟨v, hget, hread⟩ := ih f1 _ h hnd.2 j' ad hj
          refine ⟨v, hget, ?_⟩
          rw [hd1, hp1] at hread
          simp only [List.take_succ_cons, List.map_cons, List.sum_cons]
          rw [← Nat.add_assoc]
          exact hread

theorem readRecordsLoop_record (E : Extern) (ads : List ArrayDescriptor)
    (count i0 : Nat) (f f' : File) (records : List GoMap)
    (h : readRecordsLoop E ads count i0 f = .ok (records, f')) :
    ∀ i r, records[i]? = some r →
      ∃ f1 f2, f1.data = f.data
        ∧ f1.pos = f.pos + i * (1 + (ads.map (fun ad => ad.FieldLength.val)).sum) + 1
        ∧ readRecordFields E (i0 + i) ads f1 [] = .ok (r, f2) := by
  induction count generalizing i0 f records with
  | zero =>
    simp only [readRecordsLoop, Result.ok.injEq, Prod.mk.injEq] at h
    intro i r hi
    rw [← h.1] at hi
    simp at hi
  | succ n ih =>
    unfold readRecordsLoop at h
    split at h
    · simp at h
    · simp at h
    · rename_i b f1 hb
      obtain ⟨hd1, hp1, -, -⟩ := binaryRead_ok hb
      split at h
      · simp at h
      · simp at h
      · rename_i record f2 hr
        obtain ⟨hd2, hp2, -, -, -⟩ := readRecordFields_ok E i0 ads f1 f2 [] record hr
        split at h
        · simp at h
        · simp at h
        · rename_i recs f3 hl
          simp only [Result.ok.injEq, Prod.mk.injEq] at h
          obtain ⟨rfl, rfl⟩ := h
          intro i r hi
          cases i with
          | zero =>
            simp only [List.getElem?_cons_zero, Option.some.injEq] at hi
            subst hi
            exact ⟨f1, f2, hd1, by rw [hp1]; omega, hr⟩
          | succ i' =>
            simp only [List.getElem?_cons_succ] at hi
            obtain ⟨g1, g2, hgd, hgp, hg⟩ := ih _ _ _ hl i' r hi
            refine ⟨g1, g2, hgd.trans (hd2.trans hd1), ?_, ?_⟩
            · rw [hgp, hp2, hp1]
              ring
            · have e : i0 + (i' + 1) = i0 + 1 + i' := by omega
              rw [e]
              exact hg

/-! ## Dependence on the bytes read -/

theorem window_take (l : List Byte) (a n m : Nat) (h : n ≤ m) :
    ((l.drop a).take m).take n = (l.drop a).take n := by
  rw [List.take_take]
  congr 1
  omega

theorem window_drop (l : List Byte) (a n m : Nat) :
    ((l.drop a).take (n + m)).drop n = (l.drop (a + n)).take m := by
  rw [List.drop_take, List.drop_drop]
  simp

theorem window_of_take (l : List Byte) (a n P : Nat) (h : a + n ≤ P) :
    (l.drop a).take n = ((l.take P).drop a).take n := by
  rw [List.drop_take, List.take_take]
  congr 1
  omega

theorem binaryRead_transfer {n : Nat} {f f' g : File} {bs : List Byte}
    (h : binaryRead n f = .ok (bs, f')) (hpos : g.pos = f.pos)
    (hlen : f.pos + n ≤ g.data.length)
    (hwin : (g.data.drop f.pos).take n = (f.data.drop f.pos).take n) :
    binaryRead n g = .ok (bs, ⟨g.data, f'.pos⟩) := by
  obtain ⟨-, hp, hbs, -⟩ := binaryRead_ok h
  rw [binaryRead_eq n g (by omega), hpos, hwin, ← hbs, hp]

theorem readRecordFields_pos_le (E : Extern) (i : Nat) (ads : List ArrayDescriptor)
    (f f' : File) (record record' : GoMap)
    (h : readRecordFields E i ads f record = .ok (record', f'))
    (hle : f.pos ≤ f.data.length) : f'.pos ≤ f.data.length := by
  induction ads generalizing f record with
  | nil =>
    simp only [readRecordFields, Result.ok.injEq, Prod.mk.injEq] at h
    rw [← h.2]
    exact hle
  | cons ad rest ih =>
    unfold readRecordFields at h
    split at h
    · simp at h
    · simp at h
    · rename_i b f1 hb
      obtain ⟨hd1, hp1, -, hlen⟩ := binaryRead_ok hb
      split at h
      · simp at h
      · simp at h
      · have h1 : f1.pos ≤ f1.data.length := by
          rw [hd1, hp1]
          by_cases h0 : ad.FieldLength.val = 0
          · omega
          · exact hlen (by omega)
        have := ih f1 _ h h1
        rw [hd1] at this
        exact this

theorem readRecordsLoop_pos_le (E : Extern) (ads : List ArrayDescriptor)
    (count i0 : Nat) (f f' : File) (records : List GoMap)
    (h : readRecordsLoop E ads count i0 f = .ok (records, f')) :
    count = 0 ∨ f'.pos ≤ f.data.length := by
  induction count generalizing i0 f records with
  | zero => exact Or.inl rfl
  | succ n ih =>
    right
    unfold readRecordsLoop at h
    split at h
    · simp at h
    · simp at h
    · rename_i b f1 hb
      obtain ⟨hd1, hp1, -, hlen⟩ := binaryRead_ok hb
      split at h
      · simp at h
      · simp at h
      · rename_i record f2 hr
        obtain ⟨hd2, -, -, -, -⟩ := readRecordFields_ok E i0 ads f1 f2 [] record hr
        have h2 := readRecordFields_pos_le E i0 ads f1 f2 [] record hr
          (by rw [hd1, hp1]; exact hlen (by omega))
        split at h
        · simp at h
        · simp at h
        · rename_i recs f3 hl
          simp only [Result.ok.injEq, Prod.mk.injEq] at h
          obtain ⟨-, rfl⟩ := h
          obtain ⟨-, -, hp3, -⟩ := readRecordsLoop_ok _ _ _ _ _ _ _ hl
          rcases ih _ _ _ hl with h0 | h3
          · subst h0
            rw [hp3]
            rw [hd1] at h2
            omega
          · rw [hd2, hd1] at h3
            exact h3

theorem readRecordFields_transfer (E : Extern) (i : Nat) (ads : List ArrayDescriptor)
    (f f' g : File) (record record' : GoMap)
    (h : readRecordFields E i ads f record = .ok (record', f'))
    (hpos : g.pos = f.pos) (hlen : f'.pos ≤ g.data.length)
    (hwin : (g.data.drop f.pos).take (ads.map (fun ad => ad.FieldLength.val)).sum
      = (f.data.drop f.pos).take (ads.map (fun ad => ad.FieldLength.val)).sum) :
    readRecordFields E i ads g record = .ok (record', ⟨g.data, f'.pos⟩) := by
  induction ads generalizing f g record with
  | nil =>
    simp only [readRecordFields, Result.ok.injEq, Prod.mk.injEq] at h ⊢
    obtain ⟨rfl, rfl⟩ := h
    refine ⟨rfl, ?_⟩
    cases g
    simp only [File.mk.injEq, true_and]
    exact hpos
  | cons ad rest ih =>
    have hall := readRecordFields_ok E i _ f f' record record' h
    unfold readRecordFields at h ⊢
    split at h
    · simp at h
    · simp at h
    · rename_i b f1 hb
      obtain ⟨hd1, hp1, -, -⟩ := binaryRead_ok hb
      simp only [List.map_cons, List.sum_cons] at hwin hall
      have hg := binaryRead_transfer (g := g) hb hpos (by omega) (by
        rw [← window_take g.data f.pos _ _ (Nat.le_add_right _ _),
          ← window_take f.data f.pos _ _ (Nat.le_add_right _ _), hwin])
      rw [hg]
      simp only
      split at h
      · simp at h
      · simp at h
      · have := ih f1 ⟨g.data, f1.pos⟩ _ h rfl hlen (by
          have e1 := window_drop g.data f.pos ad.FieldLength.val
            (rest.map (fun ad => ad.FieldLength.val)).sum
          have e2 := window_drop f.data f.pos ad.FieldLength.val
            (rest.map (fun ad => ad.FieldLength.val)).sum
          rw [hp1, hd1]
          show (g.data.drop (f.pos + _)).take _ = _
          rw [← e1, ← e2, hwin])
        exact this

theorem readRecordsLoop_transfer (E : Extern) (ads : List ArrayDescriptor)
    (count i0 : Nat) (f f' g : File) (records : List GoMap)
    (h : readRecordsLoop E ads count i0 f = .ok (records, f'))
    (hpos : g.pos = f.pos) (hlen : count = 0 ∨ f'.pos ≤ g.data.length)
    (hwin : ∀ i, i < count →
      (g.data.drop (f.pos + i * (1 + (ads.map (fun ad => ad.FieldLength.val)).sum) + 1)).take
          (ads.map (fun ad => ad.FieldLength.val)).sum
        = (f.data.drop (f.pos + i * (1 + (ads.map (fun ad => ad.FieldLength.val)).sum)
              + 1)).take (ads.map (fun ad => ad.FieldLength.val)).sum) :
    readRecordsLoop E ads count i0 g = .ok (records, ⟨g.data, f'.pos⟩) := by
  induction count generalizing i0 f g records with
  | zero =>
    simp only [readRecordsLoop, Result.ok.injEq, Prod.mk.injEq] at h ⊢
    obtain ⟨rfl, rfl⟩ := h
    refine ⟨rfl, ?_⟩
    cases g
    simp only [File.mk.injEq, true_and]
    exact hpos
  | succ n ih =>
    have hall := readRecordsLoop_ok E ads _ i0 f f' records h
    have hlen' : f'.pos ≤ g.data.length := by
      rcases hlen with h0 | h0
      · omega
      · exact h0
    unfold readRecordsLoop at h ⊢
    split at h
    · simp at h
    · simp at h
    · rename_i b f1 hb
      obtain ⟨hd1, hp1, -, -⟩ := binaryRead_ok hb
      have hS : f.pos + 1 ≤ g.data.length := by
        have := hall.2.2.1
        have e : (n + 1) * (1 + (ads.map (fun ad => ad.FieldLength.val)).sum)
            = n * (1 + (ads.map (fun ad => ad.FieldLength.val)).sum)
              + (1 + (ads.map (fun ad => ad.FieldLength.val)).sum) := by ring
        omega
      rw [binaryRead_eq 1 g (by omega)]
      simp only
      split at h
      · simp at h
      · simp at h
      · rename_i record f2 hr
        obtain ⟨hd2, hp2, -, -, -⟩ := readRecordFields_ok E i0 ads f1 f2 [] record hr
        split at h
        · simp at h
        · simp at h
        · rename_i recs f3 hl
          simp only [Result.ok.injEq, Prod.mk.injEq] at h
          obtain ⟨rfl, rfl⟩ := h
          obtain ⟨-, -, hp3, -⟩ := readRecordsLoop_ok _ _ _ _ _ _ _ hl
          have hf2 : f2.pos ≤ g.data.length := by omega
          have hw0 := hwin 0 (by omega)
          simp only [Nat.zero_mul, Nat.add_zero] at hw0
          have hgr := readRecordFields_transfer E i0 ads f1 f2 ⟨g.data, g.pos + 1⟩ []
            record hr (by rw [hp1, hpos]) hf2 (by rw [hp1, hd1]; exact hw0)
          rw [hgr]
          simp only
          have hgl := ih (i0 + 1) f2 ⟨g.data, f2.pos⟩ recs hl rfl (Or.inr hlen') (by
            intro i hi
            have hw := hwin (i + 1) (by omega)
            have e : f.pos + (i + 1) * (1 + (ads.map (fun ad => ad.FieldLength.val)).sum) + 1
                = f2.pos + i * (1 + (ads.map (fun ad => ad.FieldLength.val)).sum) + 1 := by
              rw [hp2, hp1]
              ring
            rw [e] at hw
            rw [hd2, hd1]
            exact hw)
          rw [hgl]

/-- C15: with `S` one more than the sum of the field lengths and `q` the cursor
offset at the start, whenever `ReadRecordsBytes` succeeds the record count `N` is
not negative, `N` records are returned and exactly `N * S` bytes are consumed
(nothing when `N = 0`); when the descriptor names are pairwise distinct, the value
of record `i` for the name of descriptor `j` is `ReadField` of the type of `j` on
the `FieldLength` bytes at offset `q + i*S + 1 + L`, with `L` the sum of the lengths
of the descriptors before `j`; and on every source of the same length that holds the
same bytes in the `S - 1` field bytes of each record, whatever its deletion-flag
bytes, the same records are returned: no byte of the record region acts as a flag
or as a terminator. -/
theorem ReadRecordsBytes_layout (E : Extern) (f f' : File) (dbfFile : DBFFile)
    (records : List GoMap) (h : ReadRecordsBytes E f dbfFile = .ok (records, f')) :
    0 ≤ dbfFile.Header.NumberOfRecords
      ∧ (records.length : Int) = dbfFile.Header.NumberOfRecords
      ∧ f'.data = f.data
      ∧ (f'.pos : Int) = f.pos + dbfFile.Header.NumberOfRecords
          * (1 + ((dbfFile.ArrayDescriptors.map (fun ad => ad.FieldLength.val)).sum : Nat))
      ∧ (dbfFile.Header.NumberOfRecords = 0 → records = [] ∧ f' = f)
      ∧ ((dbfFile.ArrayDescriptors.map (fun ad => ad.FieldName)).Nodup →
          ∀ i r, records[i]? = some r → ∀ j ad, dbfFile.ArrayDescriptors[j]? = some ad →
            ∃ v, GoMap.get r ad.FieldName = some v
              ∧ ReadField E (byteVal ad.FieldType)
                  ((f.data.drop (f.pos
                      + i * (1 + (dbfFile.ArrayDescriptors.map
                          (fun ad => ad.FieldLength.val)).sum) + 1
                      + ((dbfFile.ArrayDescriptors.take j).map
                          (fun a => a.FieldLength.val)).sum)).take ad.FieldLength.val)
                = .ok v)
      ∧ (∀ g : File, g.pos = f.pos → g.data.length = f.data.length →
          (∀ i : Nat, (i : Int) < dbfFile.Header.NumberOfRecords →
            (g.data.drop (f.pos + i * (1 + (dbfFile.ArrayDescriptors.map
                  (fun ad => ad.FieldLength.val)).sum) + 1)).take
                (dbfFile.ArrayDescriptors.map (fun ad => ad.FieldLength.val)).sum
              = (f.data.drop (f.pos + i * (1 + (dbfFile.ArrayDescriptors.map
                  (fun ad => ad.FieldLength.val)).sum) + 1)).take
                (dbfFile.ArrayDescriptors.map (fun ad => ad.FieldLength.val)).sum) →
          ReadRecordsBytes E g dbfFile = .ok (records, ⟨g.data, f'.pos⟩)) := by
  unfold ReadRecordsBytes at h
  split_ifs at h with hneg
  have hn : 0 ≤ dbfFile.Header.NumberOfRecords := by omega
  have hN : ((dbfFile.Header.NumberOfRecords.toNat : Nat) : Int)
      = dbfFile.Header.NumberOfRecords := Int.toNat_of_nonneg hn
  obtain ⟨hlen, hd, hp, -⟩ := readRecordsLoop_ok _ _ _ _ _ _ _ h
  refine ⟨hn, by rw [hlen, hN], hd, ?_, ?_, ?_, ?_⟩
  · rw [hp]
    push_cast
    rw [hN]
  · intro h0
    rw [h0] at h
    simp only [Int.toNat_zero, readRecordsLoop, Result.ok.injEq, Prod.mk.injEq] at h
    exact ⟨h.1.symm, h.2.symm⟩
  · intro hnd i r hi j ad hj
    obtain ⟨f1, f2, hd1, hp1, hrec⟩ := readRecordsLoop_record _ _ _ _ _ _ _ h i r hi
    obtain ⟨v, hget, hread⟩ := readRecordFields_value _ _ _ _ _ _ _ hrec hnd j ad hj
    rw [hd1, hp1] at hread
    exact ⟨v, hget, hread⟩
  · intro g hgp hgl hwin
    unfold ReadRecordsBytes
    rw [if_neg hneg]
    apply readRecordsLoop_transfer E _ _ 0 f f' g records h hgp
    · rcases readRecordsLoop_pos_le _ _ _ _ _ _ _ h with h0 | h0
      · exact Or.inl h0
      · exact Or.inr (by rw [hgl]; exact h0)
    · intro i hi
      exact hwin i (by omega)

/-- C15 (witness): the record region of `fileAlice`, read from offset 65. -/
theorem ReadRecordsBytes_layout_witness :
    ReadRecordsBytes sampleExtern ⟨fileAlice.data, 65⟩ { tableAlice with Records := [] }
        = .ok (tableAlice.Records, ⟨fileAlice.data, 76⟩)
      ∧ (tableAlice.Records.length : Int) = 1 :=
  ⟨by decide,
    (ReadRecordsBytes_layout sampleExtern ⟨fileAlice.data, 65⟩ ⟨fileAlice.data, 76⟩
      { tableAlice with Records := [] } tableAlice.Records (by decide)).2.1⟩

/-! ## Trailing bytes -/

theorem headD_take_one (l : List Byte) : (l.take 1).headD 0 = l.headD 0 := by
  cases l <;> rfl

theorem window_agree (x z : List Byte) (a n P : Nat) (h : a + n ≤ P)
    (htake : z.take P = x.take P) : (z.drop a).take n = (x.drop a).take n := by
  rw [window_of_take z a n P h, window_of_take x a n P h, htake]

theorem ReadHeaderBytes_transfer {f f' g : File} {hdr : Header}
    (h : ReadHeaderBytes f = .ok (hdr, f')) (hpos : g.pos = f.pos) (P : Nat)
    (hP : f'.pos ≤ P) (hle : P ≤ g.data.length) (htake : g.data.take P = f.data.take P) :
    ReadHeaderBytes g = .ok (hdr, ⟨g.data, f'.pos⟩) := by
  unfold ReadHeaderBytes at h ⊢
  split at h
  · simp at h
  · simp at h
  · rename_i bs f1 hb
    simp only [Result.ok.injEq, Prod.mk.injEq] at h
    obtain ⟨rfl, rfl⟩ := h
    obtain ⟨-, hp1, -, -⟩ := binaryRead_ok hb
    rw [binaryRead_transfer hb hpos (by omega)
      (window_agree _ _ _ _ P (by omega) htake)]

theorem PeakNextByte_transfer {f f1 g : File} {off : Nat} {c : Byte}
    (h : PeakNextByte f = .ok ((off, c), f1)) (hpos : g.pos = f.pos) (P : Nat)
    (hP : f1.pos ≤ P) (hle : P ≤ g.data.length) (htake : g.data.take P = f.data.take P) :
    PeakNextByte g = .ok ((off, c), ⟨g.data, f1.pos⟩) := by
  obtain ⟨hoff, -, hp, -, hc⟩ := PeakNextByte_ok h
  rw [PeakNextByte_eq g (by omega), hpos, hoff, hp, hc]
  have hw := window_agree f.data g.data f.pos 1 P (by omega) htake
  rw [← headD_take_one (g.data.drop f.pos), hw, headD_take_one]

theorem ReadArrayDescriptorsLoop_transfer (fuel : Nat) (f f' : File)
    (acc ads : List ArrayDescriptor)
    (h : ReadArrayDescriptorsLoop fuel f acc = .ok (ads, f')) :
    ∀ (fuel' : Nat) (g : File) (P : Nat), g.pos = f.pos → f'.pos ≤ P →
      P ≤ g.data.length → g.data.take P = f.data.take P →
      g.data.length - g.pos < fuel' →
      ReadArrayDescriptorsLoop fuel' g acc = .ok (ads, ⟨g.data, f'.pos⟩) := by
  induction fuel generalizing f acc with
  | zero => simp [ReadArrayDescriptorsLoop] at h
  | succ n ih =>
    intro fuel' g P hpos hP hle htake hfuel
    obtain ⟨m, rfl⟩ : ∃ m, fuel' = m + 1 := ⟨fuel' - 1, by omega⟩
    have hall := ReadArrayDescriptorsLoop_ok _ f f' acc ads h
    unfold ReadArrayDescriptorsLoop at h ⊢
    split at h
    · simp at h
    · simp at h
    · rename_i off c f1 hpk
      obtain ⟨hseek, hne⟩ := descriptor_step hpk
      obtain ⟨-, hd, hp, -, -⟩ := PeakNextByte_ok hpk
      obtain ⟨-, new, -, hfin⟩ := hall
      have hpkg := PeakNextByte_transfer (g := g) hpk hpos P (by omega) hle htake
      obtain ⟨hseekg, -⟩ := descriptor_step hpkg
      rw [hpkg]
      simp only
      split_ifs at h with hterm
      · simp only [Result.ok.injEq, Prod.mk.injEq] at h
        obtain ⟨rfl, rfl⟩ := h
        rw [if_pos hterm]
      · rw [if_neg hterm, hseekg]
        rw [hseek] at h
        simp only at h ⊢
        split at h
        · rename_i e hb
          split_ifs at h with he
          subst he
          exact absurd hb hne
        · simp at h
        · rename_i bs f3 hb
          obtain ⟨hd3, hp3, -, -⟩ := binaryRead_ok hb
          obtain ⟨-, new3, -, hfin3⟩ := ReadArrayDescriptorsLoop_ok _ f3 f' _ ads h
          have hbg := binaryRead_transfer (g := g) hb hpos (by omega)
            (window_agree _ _ _ _ P (by omega) htake)
          rw [hbg]
          simp only
          exact ih f3 _ h m ⟨g.data, f3.pos⟩ P rfl hP hle (by rw [hd3]; exact htake)
            (by simp only; omega)

theorem ReadDBFile_transfer (E : Extern) (f f' g : File) (t : DBFFile)
    (h : ReadDBFile E f = .ok (t, f')) (hpos : g.pos = f.pos)
    (hle : f'.pos ≤ g.data.length) (htake : g.data.take f'.pos = f.data.take f'.pos) :
    ReadDBFile E g = .ok (t, ⟨g.data, f'.pos⟩) := by
  obtain ⟨f1, f2, hh, ha, hc, hn, hr⟩ := ReadDBFile_ok h
  obtain ⟨hd1, hp1, -, -⟩ := ReadHeaderBytes_ok hh
  obtain ⟨hd2, hp2⟩ := ReadArrayDescriptorsBytes_ok ha
  obtain ⟨-, hd3, hp3, -⟩ := readRecordsLoop_ok _ _ _ _ _ _ _ hr
  have hhg := ReadHeaderBytes_transfer (g := g) hh hpos f'.pos (by omega) hle htake
  have hag : ReadArrayDescriptorsBytes ⟨g.data, f1.pos⟩
      = .ok (t.ArrayDescriptors, ⟨g.data, f2.pos⟩) :=
    ReadArrayDescriptorsLoop_transfer _ f1 f2 [] _ ha _ ⟨g.data, f1.pos⟩ f'.pos rfl
      (by omega) hle (by rw [hd1]; exact htake) (by simp only; omega)
  have hrg : readRecordsLoop E t.ArrayDescriptors t.Header.NumberOfRecords.toNat 0
      ⟨g.data, f2.pos⟩ = .ok (t.Records, ⟨g.data, f'.pos⟩) := by
    apply readRecordsLoop_transfer E _ _ 0 f2 f' ⟨g.data, f2.pos⟩ _ hr rfl (Or.inr hle)
    intro i hi
    have hmul : (i + 1) * (1 + (t.ArrayDescriptors.map (fun ad => ad.FieldLength.val)).sum)
        ≤ t.Header.NumberOfRecords.toNat
          * (1 + (t.ArrayDescriptors.map (fun ad => ad.FieldLength.val)).sum) :=
      Nat.mul_le_mul_right _ (by omega)
    have e : (i + 1) * (1 + (t.ArrayDescriptors.map (fun ad => ad.FieldLength.val)).sum)
        = i * (1 + (t.ArrayDescriptors.map (fun ad => ad.FieldLength.val)).sum)
          + (1 + (t.ArrayDescriptors.map (fun ad => ad.FieldLength.val)).sum) := by ring
    rw [hd2, hd1]
    exact window_agree _ _ _ _ f'.pos (by omega) htake
  unfold ReadDBFile
  rw [hhg]
  simp only
  rw [hag]
  simp only
  rw [if_neg (by rw [hc]; simp)]
  unfold ReadRecordsBytes
  simp only
  rw [if_neg (by omega), hrg]

/-- C20: trailing bytes are ignored. Whenever `ReadDBFile` succeeds on `x` with a
table, it succeeds with the same table on `x ++ y` for every `y`; the cursor ends
at `32 + 32*k + 1 + N*(1 + sum of FieldLength)`, within `x`, and `ReadDBFile`
returns the same table on every source that agrees with `x` up to that offset, so
no byte past it is inspected. -/
theorem ReadDBFile_trailing (E : Extern) (x : List Byte) (t : DBFFile) (f' : File)
    (h : ReadDBFile E ⟨x, 0⟩ = .ok (t, f')) :
    (∀ y, ReadDBFile E ⟨x ++ y, 0⟩ = .ok (t, ⟨x ++ y, f'.pos⟩))
      ∧ (f'.pos : Int) = 32 + 32 * t.ArrayDescriptors.length + 1
          + t.Header.NumberOfRecords
            * (1 + ((t.ArrayDescriptors.map (fun ad => ad.FieldLength.val)).sum : Nat))
      ∧ f'.pos ≤ x.length
      ∧ (∀ z, f'.pos ≤ z.length → z.take f'.pos = x.take f'.pos →
          ReadDBFile E ⟨z, 0⟩ = .ok (t, ⟨z, f'.pos⟩)) := by
  obtain ⟨f1, f2, hh, ha, hc, hn, hr⟩ := ReadDBFile_ok h
  obtain ⟨hd1, hp1, -, -⟩ := ReadHeaderBytes_ok hh
  obtain ⟨hd2, hp2⟩ := ReadArrayDescriptorsBytes_ok ha
  obtain ⟨k, hk, -, hlt, -, -⟩ :=
    ReadArrayDescriptorsLoop_terminator _ f1 f2 [] t.ArrayDescriptors ha
  obtain ⟨-, hd3, hp3, -⟩ := readRecordsLoop_ok _ _ _ _ _ _ _ hr
  simp only [List.length_nil, Nat.zero_add] at hk
  subst hk
  have hle : f'.pos ≤ x.length := by
    rcases readRecordsLoop_pos_le _ _ _ _ _ _ _ hr with h0 | h0
    · rw [hp3, h0, hp2]
      rw [hd1] at hlt
      simp only at hlt
      omega
    · rw [hd2, hd1] at h0
      exact h0
  have hz : ∀ z : List Byte, f'.pos ≤ z.length → z.take f'.pos = x.take f'.pos →
      ReadDBFile E ⟨z, 0⟩ = .ok (t, ⟨z, f'.pos⟩) := fun z hzl hzt =>
    ReadDBFile_transfer E ⟨x, 0⟩ f' ⟨z, 0⟩ t h rfl hzl hzt
  refine ⟨fun y => hz (x ++ y) (by simp only [List.length_append]; omega)
    (List.take_append_of_le_length hle), ?_, hle, hz⟩
  have hN : ((t.Header.NumberOfRecords.toNat : Nat) : Int) = t.Header.NumberOfRecords :=
    Int.toNat_of_nonneg hn
  rw [hp3, hp2, hp1]
  push_cast
  rw [hN]

/-- C20 (witness): `fileAlice` followed by three more bytes. -/
theorem ReadDBFile_trailing_witness :
    ReadDBFile sampleExtern ⟨fileAlice.data ++ [1, 2, 3], 0⟩
      = .ok (tableAlice, ⟨fileAlice.data ++ [1, 2, 3], 76⟩) :=
  (ReadDBFile_trailing sampleExtern fileAlice.data tableAlice ⟨fileAlice.data, 76⟩
    (by decide)).1 [1, 2, 3]

/-! ## Run-time panics -/

/-- The fuel marker of the model never surfaces from `ReadDBFile`, and a panic of
`ReadDBFile` comes from a negative record count, after the header and the
descriptors were read and the descriptor count was accepted, and from nothing
else. -/
theorem ReadDBFile_panic_iff (E : Extern) (f : File) :
    ReadDBFile E f ≠ .error (.wrap .readingArrayDescriptors .fuelExhausted)
      ∧ (ReadDBFile E f = .panic ↔
          ∃ hdr f1 ads f2, ReadHeaderBytes f = .ok (hdr, f1)
            ∧ ReadArrayDescriptorsBytes f1 = .ok (ads, f2)
            ∧ (ads.length : Int) = expectedDescriptorCount hdr
            ∧ hdr.NumberOfRecords < 0) := by
  refine ⟨?_, ?_, ?_⟩
  · intro h
    unfold ReadDBFile at h
    split at h
    · simp at h
    · simp at h
    · split at h
      · rename_i e ha
        simp only [Result.error.injEq, Err.wrap.injEq, true_and] at h
        subst h
        exact (ReadArrayDescriptorsBytes_fuel _).1 ha
      · simp at h
      · split_ifs at h
        · simp at h
        · split at h <;> simp at h
  · intro h
    unfold ReadDBFile at h
    split at h
    · simp at h
    · rename_i hh
      exfalso
      unfold ReadHeaderBytes at hh
      split at hh
      · simp at hh
      · rename_i hb
        exact binaryRead_ne_panic _ _ hb
      · simp at hh
    · rename_i hdr f1 hh
      split at h
      · simp at h
      · rename_i ha
        exact absurd ha (ReadArrayDescriptorsBytes_fuel _).2
      · rename_i ads f2 ha
        split_ifs at h with hc
        unfold ReadRecordsBytes at h
        simp only at h
        split_ifs at h with hneg
        · exact ⟨hdr, f1, ads, f2, hh, ha, by simpa using hc, hneg⟩
        · split at h
          · simp at h
          · rename_i hr
            exact absurd hr (readRecordsLoop_ne_panic _ _ _ _ _)
          · simp at h
  · rintro ⟨hdr, f1, ads, f2, hh, ha, hc, hneg⟩
    unfold ReadDBFile
    rw [hh]
    simp only
    rw [ha]
    simp only
    rw [if_neg (by rw [hc]; simp)]
    unfold ReadRecordsBytes
    simp only
    rw [if_pos hneg]

/-- C19 (the code fails the claim): on the 33 bytes of `fileNegativeCount`, a
header whose record count bytes are `FF FF FF FF` and which declares no descriptor,
followed by the terminator, `ReadDBFile` returns neither a table nor an error: the
count is `-1` and `make` panics. -/
theorem ReadDBFile_negative_count_panics (E : Extern) :
    ReadDBFile E fileNegativeCount = .panic :=
  (ReadDBFile_panic_iff E fileNegativeCount).2.2
    ⟨sampleHeaderValue (-1) 32 1, ⟨fileNegativeCount.data, 32⟩, [],
      ⟨fileNegativeCount.data, 33⟩, by decide, by decide, by decide, by decide⟩

/-! ## The wrapped descriptor count -/

theorem flatten_length_blocks (blocks : List (List Byte))
    (hb : ∀ b ∈ blocks, b.length = 32 ∧ b.headD 0 ≠ 13) :
    blocks.flatten.length = 32 * blocks.length := by
  induction blocks with
  | nil => rfl
  | cons b bs ih =>
    have h1 := (hb b (List.mem_cons_self _ _)).1
    have h2 := ih (fun x hx => hb x (List.mem_cons_of_mem _ hx))
    simp only [List.length_cons, List.flatten_cons, List.length_append]
    omega

/-- The result of `ReadDBFile` when the header and the descriptors are read, the
count check passes and the header declares no record. -/
theorem ReadDBFile_of_parts (E : Extern) (f f1 f2 : File) (hdr : Header)
    (ads : List ArrayDescriptor) (hh : ReadHeaderBytes f = .ok (hdr, f1))
    (ha : ReadArrayDescriptorsBytes f1 = .ok (ads, f2))
    (hc : (ads.length : Int) = expectedDescriptorCount hdr)
    (hN : hdr.NumberOfRecords = 0) :
    ReadDBFile E f = .ok ({ Header := hdr, ArrayDescriptors := ads, Records := [] }, f2) := by
  unfold ReadDBFile
  rw [hh]
  simp only
  rw [ha]
  simp only
  rw [if_neg (by rw [hc]; simp)]
  unfold ReadRecordsBytes
  simp only
  rw [hN]
  rfl

/-- The result of `ReadDBFile` on a header declaring no record, followed by blocks of
32 bytes not starting with `0x0D`, in the number that the count check accepts, and
by the terminator. -/
theorem ReadDBFile_no_records (E : Extern) (hdrBytes : List Byte)
    (blocks : List (List Byte)) (tail : List Byte) (hlen : hdrBytes.length = 32)
    (hb : ∀ b ∈ blocks, b.length = 32 ∧ b.headD 0 ≠ 13)
    (hN : (decodeHeader hdrBytes).NumberOfRecords = 0)
    (hc : (blocks.length : Int) = expectedDescriptorCount (decodeHeader hdrBytes)) :
    ReadDBFile E ⟨hdrBytes ++ (blocks.flatten ++ 13 :: tail), 0⟩
      = .ok ({ Header := decodeHeader hdrBytes
               ArrayDescriptors := blocks.map decodeArrayDescriptor
               Records := [] },
          ⟨hdrBytes ++ (blocks.flatten ++ 13 :: tail), 32 + 32 * blocks.length + 1⟩) := by
  have hflat := flatten_length_blocks blocks hb
  have hhdr : ReadHeaderBytes ⟨hdrBytes ++ (blocks.flatten ++ 13 :: tail), 0⟩
      = .ok (decodeHeader hdrBytes, ⟨hdrBytes ++ (blocks.flatten ++ 13 :: tail), 32⟩) := by
    unfold ReadHeaderBytes
    rw [binaryRead_eq 32 _ (by simp only [List.length_append]; omega)]
    simp only [List.drop_zero, Nat.zero_add]
    rw [← hlen, List.take_left]
  have hdesc : ReadArrayDescriptorsBytes ⟨hdrBytes ++ (blocks.flatten ++ 13 :: tail), 32⟩
      = .ok (blocks.map decodeArrayDescriptor,
          ⟨hdrBytes ++ (blocks.flatten ++ 13 :: tail), 32 + 32 * blocks.length + 1⟩) := by
    have := ReadArrayDescriptorsLoop_blocks blocks
      ((hdrBytes ++ (blocks.flatten ++ 13 :: tail)).length + 1)
      ⟨hdrBytes ++ (blocks.flatten ++ 13 :: tail), 32⟩ [] tail
      (by show List.drop 32 _ = _; rw [← hlen, List.drop_left]) hb
      (by simp only [List.length_append, List.length_cons]; omega)
    simpa [ReadArrayDescriptorsBytes] using this
  exact ReadDBFile_of_parts E _ _ _ _ _ hhdr hdesc (by rw [List.length_map]; exact hc) hN

/-- C3 (the claim fails): `ReadDBFile` succeeds on `fileWrappedCount`, whose header
size bytes `00 80` are the `int16` value -32768, and returns its 1023 descriptors,
while `(-32768 - 32) / 32` is -1025 with either rounding. -/
theorem ReadDBFile_descriptor_count_counterexample :
    ∃ t f', ReadDBFile sampleExtern fileWrappedCount = .ok (t, f')
      ∧ t.Header.NumberOfBytesOfHeader = -32768
      ∧ t.ArrayDescriptors.length = 1023
      ∧ (t.Header.NumberOfBytesOfHeader - 32) / 32 = -1025
      ∧ Int.tdiv (t.Header.NumberOfBytesOfHeader - 32) 32 = -1025
      ∧ (t.ArrayDescriptors.length : Int) ≠ (t.Header.NumberOfBytesOfHeader - 32) / 32
      ∧ (t.ArrayDescriptors.length : Int)
          ≠ Int.tdiv (t.Header.NumberOfBytesOfHeader - 32) 32 := by
  have hH : (decodeHeader (sampleHeader 0 32768 1)).NumberOfBytesOfHeader = -32768 := by
    decide
  have hrun := ReadDBFile_no_records sampleExtern (sampleHeader 0 32768 1)
    (List.replicate 1023 (sampleDescriptor "A" 'C' 1)) [] (by decide)
    (fun b hmem => by
      rw [List.eq_of_mem_replicate hmem]
      decide)
    (by decide)
    (by rw [List.length_replicate]; decide)
  refine ⟨_, _, hrun, hH, ?_, ?_, ?_, ?_, ?_⟩
  · show (List.map decodeArrayDescriptor
        (List.replicate 1023 (sampleDescriptor "A" 'C' 1))).length = 1023
    rw [List.length_map, List.length_replicate]
  · show ((decodeHeader (sampleHeader 0 32768 1)).NumberOfBytesOfHeader - 32) / 32 = -1025
    rw [hH]
    decide
  · show Int.tdiv ((decodeHeader (sampleHeader 0 32768 1)).NumberOfBytesOfHeader - 32) 32
      = -1025
    rw [hH]
    decide
  · show ((List.map decodeArrayDescriptor
        (List.replicate 1023 (sampleDescriptor "A" 'C' 1))).length : Int)
      ≠ ((decodeHeader (sampleHeader 0 32768 1)).NumberOfBytesOfHeader - 32) / 32
    rw [hH, List.length_map, List.length_replicate]
    decide
  · show ((List.map decodeArrayDescriptor
        (List.replicate 1023 (sampleDescriptor "A" 'C' 1))).length : Int)
      ≠ Int.tdiv ((decodeHeader (sampleHeader 0 32768 1)).NumberOfBytesOfHeader - 32) 32
    rw [hH, List.length_map, List.length_replicate]
    decide

end DBF
